import Mathlib

/-!
Verification development for the SOS native bridge
(`src/SOS/Strike/datatarget.cpp`, `src/SOS/Strike/hostcoreclr.cpp`).

Shallow embedding conventions:
* HRESULT values are `Int`; `FAILED(hr)` is `hr < 0`, `SUCCEEDED(hr)` is `0 ≤ hr`.
* C strings/paths/file names are `List Char`.
* External services (debugger engine, file system, dynamic loader, hosted
  runtime) are oracles packaged in environment structures; process-wide
  globals are fields of explicit state structures threaded through the
  functions.
-/

namespace SOS

/-- `S_OK`. -/
def S_OK : Int := 0

/-- `E_FAIL` (0x80004005 as a signed 32-bit value). -/
def E_FAIL : Int := -2147467259

/-- `E_UNEXPECTED` (0x8000FFFF as a signed 32-bit value). -/
def E_UNEXPECTED : Int := -2147418113

/-- `E_ACCESSDENIED` (0x80070005 as a signed 32-bit value). -/
def E_ACCESSDENIED : Int := -2147024891

/-! ## DataTarget::GetThreadContext (datatarget.cpp lines 197-250, non-PAL path)

The dbgeng platform exposes a single addressable "current" thread, so the
code remembers the original current thread, switches to the requested one,
fetches the context, and switches back, ignoring the restore call's result.
-/

/-- The caller-supplied context buffer: its `ContextFlags` field and the rest
of the `contextSize` bytes (`ZeroMemory` + `((CONTEXT*)context)->ContextFlags
= contextFlags` prepare it before the fetch). -/
structure CtxBuf where
  flags : Nat
  rest : List Nat
deriving DecidableEq, Repr

/-- The debugger-engine state `GetThreadContext` manipulates: dbgeng's notion
of the current thread (`IDebugSystemObjects`). -/
structure ThreadState where
  currentThreadId : Nat
deriving DecidableEq, Repr

/-- Oracles for the external engine calls made by `DataTarget::GetThreadContext`:
each field is the engine's response to one call.  `GetCurrentThreadId` returns
the state's current thread when it succeeds; `SetCurrentThreadId t` changes the
current thread exactly when `setHr t` succeeds. -/
structure ThreadEnv where
  /-- hr of `g_ExtSystem->GetCurrentThreadId`. -/
  getCurrentHr : Int
  /-- hr of `g_ExtSystem->GetThreadIdBySystemId threadID`. -/
  threadBySysHr : Nat → Int
  /-- engine id produced by `GetThreadIdBySystemId threadID` when it succeeds. -/
  threadBySysId : Nat → Nat
  /-- hr of `g_ExtSystem->SetCurrentThreadId t`; the switch happens iff `0 ≤ setHr t`. -/
  setHr : Nat → Int
  /-- `g_ExtAdvanced->GetThreadContext` on the prepared buffer: its hr and what it
  leaves in the buffer. -/
  fetch : CtxBuf → Int × CtxBuf

/-- `DataTarget::GetThreadContext` on the single-current-thread (dbgeng) path:
remember the original current thread, map the system id, switch, zero and flag
the buffer, fetch, unconditionally attempt to restore the original thread, and
return the fetch's hr.  Output: (returned hr, engine state, context buffer). -/
def GetThreadContext (env : ThreadEnv) (st : ThreadState)
    (threadID contextFlags contextSize : Nat) (buf0 : CtxBuf) :
    Int × ThreadState × CtxBuf :=
  if env.getCurrentHr < 0 then (env.getCurrentHr, st, buf0)
  else
    let ulThreadIDOrig := st.currentThreadId
    if env.threadBySysHr threadID < 0 then (env.threadBySysHr threadID, st, buf0)
    else
      let ulThreadIDRequested := env.threadBySysId threadID
      if env.setHr ulThreadIDRequested < 0 then (env.setHr ulThreadIDRequested, st, buf0)
      else
        let stSwitched : ThreadState := ⟨ulThreadIDRequested⟩
        let prepared : CtxBuf := ⟨contextFlags, List.replicate contextSize 0⟩
        let fetched := env.fetch prepared
        -- cleanup: failure here doesn't change the returned hr
        let stFinal : ThreadState :=
          if env.setHr ulThreadIDOrig < 0 then stSwitched else ⟨ulThreadIDOrig⟩
        (fetched.1, stFinal, fetched.2)

/-! ## SymbolReader::GetLineByILOffset, legacy path (hostcoreclr.cpp lines 1147-1194)

A single forward scan over the method's sequence points `(offset, line)`,
breaking at the first offset above `ilOffset` (a `ULONG64`, modelled as `Nat`)
and keeping the index of the latest non-hidden entry seen. -/

/-- The reserved "hidden" sentinel line value `0x00feefee`. -/
def HiddenLine : Nat := 0x00feefee

/-- The scan loop of the legacy `GetLineByILOffset` path: `bestSoFar` holds the
line of the latest entry with `offset ≤ ilOffset` whose line is not hidden. -/
def getLineScan (ilOffset : Nat) : List (Nat × Nat) → Option Nat → Option Nat
  | [], bestSoFar => bestSoFar
  | (off, line) :: rest, bestSoFar =>
    if ilOffset < off then bestSoFar
    else getLineScan ilOffset rest (if line = HiddenLine then bestSoFar else some line)

/-- Legacy path of `SymbolReader::GetLineByILOffset` over the sequence points
`(offset, line)` of the method: `some line` models the `S_OK` result
(`*pLinenum = lines[bestSoFar]`), `none` models the `E_FAIL` ("not found")
result (empty table, or no qualifying entry). -/
def GetLineByILOffset_legacy (seqPoints : List (Nat × Nat)) (ilOffset : Nat) : Option Nat :=
  getLineScan ilOffset seqPoints none

/-- The spec's description of the scan's result, written from the spec's words:
the line of the latest sequence point whose offset is at most `ilOffset`,
skipping entries whose line is the hidden sentinel. -/
def latestVisibleLineAtOrBefore (ilOffset : Nat) : List (Nat × Nat) → Option Nat
  | [] => none
  | (off, line) :: rest =>
    match latestVisibleLineAtOrBefore ilOffset rest with
    | some l => some l
    | none => if off ≤ ilOffset ∧ line ≠ HiddenLine then some line else none

/-! ### Lemmas about the legacy sequence-point scan -/

/-- No entry qualifies iff the spec-side selection is empty. -/
theorem latestVisible_eq_none_iff (ilOffset : Nat) (pts : List (Nat × Nat)) :
    latestVisibleLineAtOrBefore ilOffset pts = none ↔
      ∀ p ∈ pts, ¬(p.1 ≤ ilOffset ∧ p.2 ≠ HiddenLine) := by
  induction pts with
  | nil => simp [latestVisibleLineAtOrBefore]
  | cons p rest ih =>
    obtain ⟨off, line⟩ := p
    simp only [latestVisibleLineAtOrBefore, List.mem_cons]
    cases hrest : latestVisibleLineAtOrBefore ilOffset rest with
    | some l =>
      simp only [hrest]
      constructor
      · intro h; exact Option.noConfusion h
      · intro h
        have hn : latestVisibleLineAtOrBefore ilOffset rest = none :=
          ih.mpr (fun q hq => h q (Or.inr hq))
        rw [hn] at hrest; exact Option.noConfusion hrest
    | none =>
      simp only [hrest]
      by_cases hq : off ≤ ilOffset ∧ line ≠ HiddenLine
      · simp only [if_pos hq]
        constructor
        · intro h; exact Option.noConfusion h
        · intro h; exact absurd hq (h (off, line) (Or.inl rfl))
      · simp only [if_neg hq]
        constructor
        · intro _ q hq'
          rcases hq' with rfl | h2
          · exact hq
          · exact ih.mp hrest q h2
        · intro _; trivial

/-- The scan loop computes the spec-side selection when the offsets are
nondecreasing, for any starting accumulator. -/
theorem getLineScan_eq (ilOffset : Nat) (pts : List (Nat × Nat))
    (hsorted : List.Pairwise (fun a b => a.1 ≤ b.1) pts) (best : Option Nat) :
    getLineScan ilOffset pts best =
      match latestVisibleLineAtOrBefore ilOffset pts with
      | some l => some l
      | none => best := by
  induction pts generalizing best with
  | nil => simp [getLineScan, latestVisibleLineAtOrBefore]
  | cons p rest ih =>
    obtain ⟨off, line⟩ := p
    rcases List.pairwise_cons.mp hsorted with ⟨hhead, htail⟩
    by_cases hlt : ilOffset < off
    · have hrest : latestVisibleLineAtOrBefore ilOffset rest = none := by
        rw [latestVisible_eq_none_iff]
        intro q hq hcon
        exact absurd (le_trans (hhead q hq) hcon.1) (Nat.not_le_of_lt hlt)
      have hnotq : ¬(off ≤ ilOffset ∧ line ≠ HiddenLine) :=
        fun hcon => absurd hcon.1 (Nat.not_le_of_lt hlt)
      simp only [getLineScan, if_pos hlt, latestVisibleLineAtOrBefore, hrest,
        if_neg hnotq]
    · have hle : off ≤ ilOffset := Nat.le_of_not_lt (fun h => hlt h)
      simp only [getLineScan, if_neg hlt, latestVisibleLineAtOrBefore]
      rw [ih htail]
      cases hrest : latestVisibleLineAtOrBefore ilOffset rest with
      | some l => simp only [hrest]
      | none =>
        simp only [hrest]
        by_cases hhid : line = HiddenLine
        · simp [hhid, hle]
        · simp [hhid, hle]

/-! ### Claim C1 -/

/-- C1: on the single-current-thread (dbgeng) path of
`DataTarget::GetThreadContext`, whenever the current thread has been switched
to the requested thread (the three preliminary engine calls succeeded), the
original current-thread identity is restored before returning — the restore
switch is attempted and succeeds regardless of the context fetch's outcome —
and the returned result is exactly the fetch's result. -/
theorem C1_getThreadContext_restores (env : ThreadEnv) (st : ThreadState)
    (threadID contextFlags contextSize : Nat) (buf0 : CtxBuf)
    (hcur : 0 ≤ env.getCurrentHr)
    (hmap : 0 ≤ env.threadBySysHr threadID)
    (hswitch : 0 ≤ env.setHr (env.threadBySysId threadID))
    (hrestore : 0 ≤ env.setHr st.currentThreadId) :
    (GetThreadContext env st threadID contextFlags contextSize buf0).1 =
        (env.fetch ⟨contextFlags, List.replicate contextSize 0⟩).1 ∧
    (GetThreadContext env st threadID contextFlags contextSize buf0).2.1.currentThreadId =
        st.currentThreadId := by
  have h1 : ¬ env.getCurrentHr < 0 := not_lt.mpr hcur
  have h2 : ¬ env.threadBySysHr threadID < 0 := not_lt.mpr hmap
  have h3 : ¬ env.setHr (env.threadBySysId threadID) < 0 := not_lt.mpr hswitch
  have h4 : ¬ env.setHr st.currentThreadId < 0 := not_lt.mpr hrestore
  simp only [GetThreadContext, if_neg h1, if_neg h2, if_neg h3, if_neg h4]
  exact ⟨trivial, trivial⟩

/-- A concrete engine for the C1 witness: all switches succeed and the
context fetch itself fails with `E_FAIL`. -/
def c1Env : ThreadEnv where
  getCurrentHr := 0
  threadBySysHr := fun _ => 0
  threadBySysId := fun t => t + 100
  setHr := fun _ => 0
  fetch := fun b => (E_FAIL, b)

/-- Witness for C1 at a concrete engine whose fetch fails: the original
current thread 7 is restored and the fetch's failing hr is returned. -/
theorem C1_witness :
    (GetThreadContext c1Env ⟨7⟩ 3 1 2 ⟨0, []⟩).1 = E_FAIL ∧
    (GetThreadContext c1Env ⟨7⟩ 3 1 2 ⟨0, []⟩).2.1.currentThreadId = 7 := by
  have h := C1_getThreadContext_restores c1Env ⟨7⟩ 3 1 2 ⟨0, []⟩
    (by decide) (by decide) (by decide) (by decide)
  exact ⟨h.1, h.2⟩

/-! ### Claim C3 -/

/-- C3 counterexample: in the legacy scan, querying `ilOffset = -1` — the
`ULONG64` parameter receives `2^64 - 1`, which is at or above every 32-bit
offset — over offsets `[0, 5, 10]` with lines `[1, HIDDEN, 3]` returns line 3
(the latest non-hidden entry), not the claimed NotFound. -/
theorem C3_counterexample :
    GetLineByILOffset_legacy [(0, 1), (5, HiddenLine), (10, 3)] (2 ^ 64 - 1) = some 3 ∧
    GetLineByILOffset_legacy [(0, 1), (5, HiddenLine), (10, 3)] (2 ^ 64 - 1) ≠ none := by
  refine ⟨by decide, by decide⟩

/-- C3 (amended): the legacy path of `SymbolReader::GetLineByILOffset`
performs a single forward scan over the method's offset-ordered sequence
points, keeping the latest entry whose offset is at most `ilOffset` while
skipping hidden-sentinel lines, and fails NotFound exactly when no qualifying
entry exists; for offsets `[0,5,10]` with lines `[1,HIDDEN,3]`, `ilOffset = 7`
returns line 1, and `ilOffset = -1` (i.e. `2^64 - 1` as the unsigned 64-bit
parameter) returns line 3, the latest non-hidden entry. -/
theorem C3_legacy_scan (seqPoints : List (Nat × Nat)) (ilOffset : Nat)
    (hsorted : List.Pairwise (fun a b => a.1 ≤ b.1) seqPoints) :
    GetLineByILOffset_legacy seqPoints ilOffset =
        latestVisibleLineAtOrBefore ilOffset seqPoints ∧
    (GetLineByILOffset_legacy seqPoints ilOffset = none ↔
        ∀ p ∈ seqPoints, ¬(p.1 ≤ ilOffset ∧ p.2 ≠ HiddenLine)) ∧
    GetLineByILOffset_legacy [(0, 1), (5, HiddenLine), (10, 3)] 7 = some 1 ∧
    GetLineByILOffset_legacy [(0, 1), (5, HiddenLine), (10, 3)] (2 ^ 64 - 1) = some 3 := by
  have hmain : GetLineByILOffset_legacy seqPoints ilOffset =
      latestVisibleLineAtOrBefore ilOffset seqPoints := by
    unfold GetLineByILOffset_legacy
    rw [getLineScan_eq ilOffset seqPoints hsorted none]
    cases latestVisibleLineAtOrBefore ilOffset seqPoints <;> rfl
  refine ⟨hmain, ?_, by decide, by decide⟩
  rw [hmain]
  exact latestVisible_eq_none_iff ilOffset seqPoints

/-- Witness for C3 (amended) at the concrete sequence-point table of the claim. -/
theorem C3_witness :
    GetLineByILOffset_legacy [(0, 1), (5, HiddenLine), (10, 3)] 7 = some 1 := by
  have h := C3_legacy_scan [(0, 1), (5, HiddenLine), (10, 3)] 7 (by decide)
  exact h.2.2.1

/-! ## SymbolReader::ResolveSequencePoint, legacy path — filename matching
(hostcoreclr.cpp lines 1363-1392)

For each known document the URL is compared against the query filename:
equal-length URLs are compared case-insensitively in full; longer URLs match
when the character before the filename-length suffix is a path separator and
the suffix compares case-insensitively equal.  `cchUrl` counts the null
terminator, so `cchUrl - 1` is the URL's length. -/

/-- `towlower` on the ASCII range (the only range the claim's examples need). -/
def towlowerM (c : Char) : Char :=
  if 'A' ≤ c ∧ c ≤ 'Z' then Char.ofNat (c.toNat + 32) else c

/-- `_wcsicmp(a, b) == 0` for the equal-length comparisons the code performs:
the two strings are equal after case folding. -/
def wcsicmpEq (a b : List Char) : Bool :=
  a.map towlowerM == b.map towlowerM

/-- The document-URL match test of the legacy `ResolveSequencePoint` loop:
`true` iff the loop does not `continue` past this document. -/
def docMatches (url filename : List Char) : Bool :=
  -- If the URL is exactly as long as the filename then compare the two directly
  if url.length = filename.length then wcsicmpEq url filename
  -- does the URL suffix match [back]slash + filename?
  else if filename.length < url.length then
    (decide (url.getD (url.length - filename.length - 1) ' ' = '\\') ||
     decide (url.getD (url.length - filename.length - 1) ' ' = '/')) &&
    wcsicmpEq (url.drop (url.length - filename.length)) filename
  -- URL is too short to match
  else false

/-- `getD` at the index of the distinguished element of `(pre ++ [c]) ++ tail`. -/
theorem getD_snoc_append (pre : List Char) (c : Char) (tail : List Char) :
    ((pre ++ [c]) ++ tail).getD pre.length ' ' = c := by
  induction pre with
  | nil => rfl
  | cons a pre ih => simpa using ih

/-! ### Claim C7 -/

/-- C7: in the legacy path of `SymbolReader::ResolveSequencePoint`, a query
filename matches a document URL exactly when the URL has the same length and
compares case-insensitively equal, or the URL decomposes as some prefix, a
path-separator character, and a suffix that compares case-insensitively equal
to the filename; in particular `foo.cs` matches URLs `foo.cs` and
`/src/foo.cs` but not `barfoo.cs`. -/
theorem C7_resolve_filename_match (url filename : List Char) :
    (docMatches url filename = true ↔
      (url.map towlowerM = filename.map towlowerM ∨
       ∃ pre c tail, url = pre ++ c :: tail ∧ (c = '\\' ∨ c = '/') ∧
         tail.map towlowerM = filename.map towlowerM)) ∧
    docMatches ['f','o','o','.','c','s'] ['f','o','o','.','c','s'] = true ∧
    docMatches ['/','s','r','c','/','f','o','o','.','c','s']
        ['f','o','o','.','c','s'] = true ∧
    docMatches ['b','a','r','f','o','o','.','c','s']
        ['f','o','o','.','c','s'] = false := by
  refine ⟨⟨?_, ?_⟩, by decide, by decide, by decide⟩
  · intro h
    unfold docMatches wcsicmpEq at h
    split_ifs at h with heq hlt
    · exact Or.inl (beq_iff_eq.mp h)
    · right
      rw [Bool.and_eq_true, Bool.or_eq_true, decide_eq_true_eq, decide_eq_true_eq] at h
      obtain ⟨hsep, hsuf⟩ := h
      have hiL : url.length - filename.length - 1 < url.length := by omega
      refine ⟨url.take (url.length - filename.length - 1),
        url[url.length - filename.length - 1],
        url.drop (url.length - filename.length - 1 + 1), ?_, ?_, ?_⟩
      · conv_lhs => rw [← List.take_append_drop (url.length - filename.length - 1) url]
        rw [List.drop_eq_getElem_cons hiL]
      · rw [List.getD_eq_getElem url ' ' hiL] at hsep
        exact hsep
      · have hidx : url.length - filename.length - 1 + 1 =
            url.length - filename.length := by omega
        rw [hidx]
        exact beq_iff_eq.mp hsuf
  · intro h
    unfold docMatches wcsicmpEq
    rcases h with hfull | ⟨pre, c, tail, hurl, hsep, hsuf⟩
    · have hlen : url.length = filename.length := by
        have := congrArg List.length hfull; simpa using this
      rw [if_pos hlen]
      exact beq_iff_eq.mpr hfull
    · subst hurl
      have hlenT : tail.length = filename.length := by
        have := congrArg List.length hsuf; simpa using this
      have hlenU : (pre ++ c :: tail).length = pre.length + 1 + filename.length := by
        rw [List.length_append, List.length_cons, hlenT]; omega
      have hne : ¬ (pre ++ c :: tail).length = filename.length := by omega
      have hlt : filename.length < (pre ++ c :: tail).length := by omega
      rw [if_neg hne, if_pos hlt,
        Bool.and_eq_true, Bool.or_eq_true, decide_eq_true_eq, decide_eq_true_eq]
      have hic : (pre ++ c :: tail).length - filename.length - 1 = pre.length := by omega
      have hdecomp : pre ++ c :: tail = (pre ++ [c]) ++ tail := by simp
      refine ⟨?_, ?_⟩
      · rw [hic, hdecomp, getD_snoc_append]
        exact hsep
      · have hdropLen : (pre ++ c :: tail).length - filename.length =
            pre.length + 1 := by omega
        rw [hdropLen, hdecomp]
        have hdl : ((pre ++ [c]) ++ tail).drop ((pre ++ [c]).length) = tail :=
          List.drop_left (pre ++ [c]) tail
        rw [List.length_append, List.length_singleton] at hdl
        rw [hdl]
        exact beq_iff_eq.mpr hsuf

/-! ## Directory enumeration (`WIN32_FIND_DATAA`)

`FindFirstFileA`/`FindNextFileA` enumeration results are modelled as a list of
entries giving the file name and whether `FILE_ATTRIBUTE_DIRECTORY` is set. -/

/-- One `WIN32_FIND_DATAA` record: `cFileName` and the directory attribute. -/
structure FindData where
  cFileName : List Char
  isDirectory : Bool
deriving DecidableEq, Repr

/-! ## SOSShutdown (hostcoreclr.cpp lines 470-500)

`g_tmpPath` is atomically exchanged to null; whoever obtained a non-null
value deletes every non-directory entry under it and removes the directory. -/

/-- A filesystem side effect performed by `SOSShutdown`. -/
inductive FsAction where
  | deleteFile (path : List Char)
  | removeDirectory (path : List Char)
deriving DecidableEq, Repr

/-- `SOSShutdown`: exchange `g_tmpPath` with null; if the previous value was
non-null, delete each non-directory entry of its listing (the path is
`tmpPath` + `cFileName`; `tmpPath` ends with a separator) and then remove the
directory.  Output: (new `g_tmpPath`, filesystem actions performed). -/
def SOSShutdown (listing : List FindData) (g_tmpPath : Option (List Char)) :
    Option (List Char) × List FsAction :=
  match g_tmpPath with
  | none => (none, [])
  | some tmpPath =>
    (none,
      (listing.filter (fun e => !e.isDirectory)).map
        (fun e => FsAction.deleteFile (tmpPath ++ e.cFileName)) ++
      [FsAction.removeDirectory tmpPath])

/-! ### Claim C9 -/

/-- C9: scratch-directory cleanup performs the filesystem removal at most once
per process: an invocation that observes a non-null scratch path swaps it to
null and performs the removal — the contained files' deletions followed by
exactly one removal of the directory — and any invocation that observes null
(in particular any invocation after the first) performs no action at all. -/
theorem C9_shutdown_at_most_once (listing listing2 : List FindData)
    (tmpPath : List Char) :
    (SOSShutdown listing (some tmpPath)).2.count (FsAction.removeDirectory tmpPath) = 1 ∧
    (SOSShutdown listing (some tmpPath)).2 =
      (listing.filter (fun e => !e.isDirectory)).map
        (fun e => FsAction.deleteFile (tmpPath ++ e.cFileName)) ++
      [FsAction.removeDirectory tmpPath] ∧
    (SOSShutdown listing (some tmpPath)).1 = none ∧
    SOSShutdown listing2 (SOSShutdown listing (some tmpPath)).1 = (none, []) ∧
    SOSShutdown listing2 none = (none, []) := by
  have h0 : FsAction.removeDirectory tmpPath ∉
      (listing.filter (fun e => !e.isDirectory)).map
        (fun e => FsAction.deleteFile (tmpPath ++ e.cFileName)) := by
    simp [List.mem_map]
  refine ⟨?_, rfl, rfl, rfl, rfl⟩
  simp [SOSShutdown, List.count_append, List.count_eq_zero.mpr h0]

/-! ## DataTarget::ReadVirtual (datatarget.cpp lines 127-152, FEATURE_PAL path)

LLDB's core-dump reader synthesizes zero-filled pages for missing metadata
pages, so when `g_sos` is available the read is first checked against the
known per-module metadata ranges and deliberately failed with
`E_ACCESSDENIED` instead of being forwarded. -/

/-- The external collaborators of `ReadVirtual`: the debugger's memory service
(`g_ExtData`, `none` when not attached) mapping (address, request) to
(hr, bytes transferred), and the metadata regions known through `g_sos`
(`none` models `g_sos == nullptr`, in which case no region is known). -/
structure ReadEnv where
  readVirtualSvc : Option (Nat → Nat → Int × Nat)
  sosMetadataRegions : Option (List (Nat × Nat))

/-- The per-module metadata ranges known to the metadata-region machinery:
none when `g_sos` is null. -/
def knownMetadataRegions (env : ReadEnv) : List (Nat × Nat) :=
  match env.sosMetadataRegions with
  | some regions => regions
  | none => []

/-- Modelled from the spec: `IsMetadataMemory` (declared in a header outside
the two source files; only its call site appears in `datatarget.cpp`) "creates
a list of the metadata regions and returns true if the read would be in the
metadata of a loaded assembly" — true iff the requested range
`[address, address + request)` overlaps a known range `[start, start + size)`. -/
def IsMetadataMemory (regions : List (Nat × Nat)) (address request : Nat) : Bool :=
  regions.any (fun r => decide (address < r.1 + r.2) && decide (r.1 < address + request))

/-- `DataTarget::ReadVirtual` on the FEATURE_PAL path.  Output:
(hr, bytes transferred, whether the request was forwarded to the memory
service). -/
def ReadVirtual (env : ReadEnv) (address request : Nat) : Int × Nat × Bool :=
  match env.readVirtualSvc with
  | none => (E_UNEXPECTED, 0, false)
  | some svc =>
    if IsMetadataMemory (knownMetadataRegions env) address request then
      (E_ACCESSDENIED, 0, false)
    else ((svc address request).1, (svc address request).2, true)

/-! ### Claim C6 -/

/-- C6: on the core-dump platform path, a `ReadVirtual` whose requested range
overlaps a known per-module metadata range fails with `E_ACCESSDENIED` and is
not forwarded to the debugger's memory service, and a read overlapping no
known range is passed through to the memory service unchanged. -/
theorem C6_readvirtual_metadata_guard (env : ReadEnv)
    (svc : Nat → Nat → Int × Nat) (address request : Nat)
    (hsvc : env.readVirtualSvc = some svc) :
    ((∃ r ∈ knownMetadataRegions env,
        address < r.1 + r.2 ∧ r.1 < address + request) →
      ReadVirtual env address request = (E_ACCESSDENIED, 0, false)) ∧
    ((∀ r ∈ knownMetadataRegions env,
        ¬(address < r.1 + r.2 ∧ r.1 < address + request)) →
      ReadVirtual env address request =
        ((svc address request).1, (svc address request).2, true)) := by
  have hiff : IsMetadataMemory (knownMetadataRegions env) address request = true ↔
      ∃ r ∈ knownMetadataRegions env,
        address < r.1 + r.2 ∧ r.1 < address + request := by
    simp [IsMetadataMemory, List.any_eq_true]
  constructor
  · intro hover
    simp only [ReadVirtual, hsvc, if_pos (hiff.mpr hover)]
  · intro hnone
    have hfalse : ¬ IsMetadataMemory (knownMetadataRegions env) address request = true := by
      intro h
      obtain ⟨r, hr, hov⟩ := hiff.mp h
      exact hnone r hr hov
    simp only [ReadVirtual, hsvc, if_neg hfalse]

/-- A concrete environment for the C6 witness: one metadata region
`[100, 116)` and a memory service that succeeds, returning the request size. -/
def c6Env : ReadEnv where
  readVirtualSvc := some (fun _ n => (0, n))
  sosMetadataRegions := some [(100, 16)]

/-- Witness for C6: a read overlapping the metadata region is denied, a
disjoint read is forwarded unchanged. -/
theorem C6_witness :
    ReadVirtual c6Env 104 8 = (E_ACCESSDENIED, 0, false) ∧
    ReadVirtual c6Env 0 10 = (0, 10, true) := by
  refine ⟨(C6_readvirtual_metadata_guard c6Env (fun _ n => (0, n)) 104 8 rfl).1
      (by decide),
    ((C6_readvirtual_metadata_guard c6Env (fun _ n => (0, n)) 0 10 rfl).2
      (by decide)).trans rfl⟩

/-! ## FindDotNetVersion (hostcoreclr.cpp lines 297-341)

Enumerate the install root's entries; for each subdirectory whose name parses
as `sscanf_s(name, "%d.%d.%d", ...) == 3` with the requested major/minor,
keep the name whenever its revision is at least the running highest. -/

/-- Whitespace skipped by `sscanf`'s `%d` conversion. -/
def isScanfSpace (c : Char) : Bool :=
  c = ' ' || c = '\t' || c = '\n' || c = '\r' || c = '\x0b' || c = '\x0c'

/-- Skip leading `sscanf` whitespace. -/
def skipWs : List Char → List Char
  | [] => []
  | c :: cs => if isScanfSpace c then skipWs cs else c :: cs

/-- Longest leading run of decimal digits, and the remainder. -/
def takeDigits : List Char → List Char × List Char
  | [] => ([], [])
  | c :: cs =>
    if c.isDigit then
      let r := takeDigits cs
      (c :: r.1, r.2)
    else ([], c :: cs)

/-- Value of a decimal digit string. -/
def natOfDigits (ds : List Char) : Nat :=
  ds.foldl (fun a c => a * 10 + (c.toNat - 48)) 0

/-- One `%d` conversion of `sscanf`: optional whitespace, optional sign, at
least one digit.  Returns the value and the unconsumed remainder; `none` when
the conversion fails. -/
def scanInt (cs : List Char) : Option (Int × List Char) :=
  match skipWs cs with
  | '-' :: rest =>
    match takeDigits rest with
    | ([], _) => none
    | (ds, rest2) => some (-(natOfDigits ds : Int), rest2)
  | '+' :: rest =>
    match takeDigits rest with
    | ([], _) => none
    | (ds, rest2) => some ((natOfDigits ds : Int), rest2)
  | other =>
    match takeDigits other with
    | ([], _) => none
    | (ds, rest2) => some ((natOfDigits ds : Int), rest2)

/-- `sscanf_s(name, "%d.%d.%d", &major, &minor, &revision) == 3`: the parsed
triple when all three conversions (separated by literal dots) succeed. -/
def scanVersion (name : List Char) : Option (Int × Int × Int) :=
  match scanInt name with
  | none => none
  | some (major, r1) =>
    match r1 with
    | '.' :: r2 =>
      match scanInt r2 with
      | none => none
      | some (minor, r3) =>
        match r3 with
        | '.' :: r4 =>
          match scanInt r4 with
          | none => none
          | some (revision, _) => some (major, minor, revision)
        | _ => none
    | _ => none

/-- The revision under which entry `e` competes for filter (major, minor):
`some r` iff `e` is a directory whose name parses with exactly that
major/minor. -/
def matchRevision (majorFilter minorFilter : Int) (e : FindData) : Option Int :=
  if e.isDirectory then
    match scanVersion e.cFileName with
    | some (major, minor, revision) =>
      if major = majorFilter ∧ minor = minorFilter then some revision else none
    | none => none
  else none

/-- The enumeration loop of `FindDotNetVersion`, carrying `highestRevision`
and `versionFound`. -/
def findVersionLoop (majorFilter minorFilter : Int) :
    List FindData → Int → List Char → Int × List Char
  | [], highestRevision, versionFound => (highestRevision, versionFound)
  | e :: es, highestRevision, versionFound =>
    if e.isDirectory then
      match scanVersion e.cFileName with
      | some (major, minor, revision) =>
        if major = majorFilter ∧ minor = minorFilter then
          if highestRevision ≤ revision then
            findVersionLoop majorFilter minorFilter es revision e.cFileName
          else
            findVersionLoop majorFilter minorFilter es highestRevision versionFound
        else findVersionLoop majorFilter minorFilter es highestRevision versionFound
      | none => findVersionLoop majorFilter minorFilter es highestRevision versionFound
    else findVersionLoop majorFilter minorFilter es highestRevision versionFound

/-- `FindDotNetVersion`: `some (hostRuntimeDirectory ++ versionFound)` when a
matching version-shaped subdirectory was found (the source appends the found
name to the by-ref directory and returns true), else `none`. -/
def FindDotNetVersion (majorFilter minorFilter : Int) (entries : List FindData)
    (hostRuntimeDirectory : List Char) : Option (List Char) :=
  let r := findVersionLoop majorFilter minorFilter entries 0 []
  if 0 < r.2.length then some (hostRuntimeDirectory ++ r.2) else none

/-- One step of the loop, written through `matchRevision`. -/
theorem findVersionLoop_cons (majF minF : Int) (e : FindData) (es : List FindData)
    (hi : Int) (found : List Char) :
    findVersionLoop majF minF (e :: es) hi found =
      match matchRevision majF minF e with
      | some r =>
        if hi ≤ r then findVersionLoop majF minF es r e.cFileName
        else findVersionLoop majF minF es hi found
      | none => findVersionLoop majF minF es hi found := by
  cases hd : e.isDirectory
  · simp [findVersionLoop, matchRevision, hd]
  · cases hs : scanVersion e.cFileName with
    | none => simp [findVersionLoop, matchRevision, hd, hs]
    | some v =>
      obtain ⟨a, b, r⟩ := v
      by_cases hab : a = majF ∧ b = minF
      · simp [findVersionLoop, matchRevision, hd, hs, hab]
      · simp [findVersionLoop, matchRevision, hd, hs, hab]

/-- The loop's result is either the starting accumulator or the revision and
name of some matching entry of the list. -/
theorem findVersionLoop_shape (majF minF : Int) (es : List FindData) :
    ∀ hi found,
      ((findVersionLoop majF minF es hi found).1 = hi ∧
        (findVersionLoop majF minF es hi found).2 = found) ∨
      ∃ e ∈ es, matchRevision majF minF e =
          some (findVersionLoop majF minF es hi found).1 ∧
        (findVersionLoop majF minF es hi found).2 = e.cFileName := by
  induction es with
  | nil => intro hi found; exact Or.inl ⟨rfl, rfl⟩
  | cons e es ih =>
    intro hi found
    rw [findVersionLoop_cons]
    cases hm : matchRevision majF minF e with
    | none =>
      rcases ih hi found with h | ⟨e', he', h1, h2⟩
      · exact Or.inl h
      · exact Or.inr ⟨e', List.mem_cons_of_mem _ he', h1, h2⟩
    | some r0 =>
      dsimp only
      by_cases hle : hi ≤ r0
      · rw [if_pos hle]
        rcases ih r0 e.cFileName with ⟨h1, h2⟩ | ⟨e', he', h1, h2⟩
        · exact Or.inr ⟨e, List.mem_cons_self e es, by rw [h1, hm], h2⟩
        · exact Or.inr ⟨e', List.mem_cons_of_mem _ he', h1, h2⟩
      · rw [if_neg hle]
        rcases ih hi found with h | ⟨e', he', h1, h2⟩
        · exact Or.inl h
        · exact Or.inr ⟨e', List.mem_cons_of_mem _ he', h1, h2⟩

/-- The loop's resulting revision bounds the starting one and the revision of
every matching entry of the list. -/
theorem findVersionLoop_bound (majF minF : Int) (es : List FindData) :
    ∀ hi found,
      hi ≤ (findVersionLoop majF minF es hi found).1 ∧
      ∀ e ∈ es, ∀ r, matchRevision majF minF e = some r →
        r ≤ (findVersionLoop majF minF es hi found).1 := by
  induction es with
  | nil => intro hi found; exact ⟨le_refl _, by simp⟩
  | cons e es ih =>
    intro hi found
    rw [findVersionLoop_cons]
    cases hm : matchRevision majF minF e with
    | none =>
      refine ⟨(ih hi found).1, ?_⟩
      intro e' he' r hr
      rcases List.mem_cons.mp he' with rfl | he'
      · rw [hm] at hr; exact Option.noConfusion hr
      · exact (ih hi found).2 e' he' r hr
    | some r0 =>
      dsimp only
      by_cases hle : hi ≤ r0
      · rw [if_pos hle]
        refine ⟨le_trans hle (ih r0 e.cFileName).1, ?_⟩
        intro e' he' r hr
        rcases List.mem_cons.mp he' with heq | he'
        · rw [heq, hm] at hr
          injection hr with h
          rw [← h]
          exact (ih r0 e.cFileName).1
        · exact (ih r0 e.cFileName).2 e' he' r hr
      · rw [if_neg hle]
        refine ⟨(ih hi found).1, ?_⟩
        intro e' he' r hr
        rcases List.mem_cons.mp he' with rfl | he'
        · rw [hm] at hr
          injection hr with h
          rw [← h]
          exact le_trans (le_of_not_le hle) (ih hi found).1
        · exact (ih hi found).2 e' he' r hr

/-- When some entry matches with revision at least the starting highest, the
loop's result names a matching entry. -/
theorem findVersionLoop_found (majF minF : Int) (es : List FindData) :
    ∀ hi found,
      (∃ e ∈ es, ∃ r, matchRevision majF minF e = some r ∧ hi ≤ r) →
      ∃ e ∈ es, matchRevision majF minF e =
          some (findVersionLoop majF minF es hi found).1 ∧
        (findVersionLoop majF minF es hi found).2 = e.cFileName := by
  induction es with
  | nil => intro hi found h; simp at h
  | cons e es ih =>
    intro hi found h
    rw [findVersionLoop_cons]
    cases hm : matchRevision majF minF e with
    | none =>
      obtain ⟨e', he', r, hr, hhir⟩ := h
      rcases List.mem_cons.mp he' with rfl | he'
      · rw [hm] at hr; exact Option.noConfusion hr
      · obtain ⟨e'', he'', h1, h2⟩ := ih hi found ⟨e', he', r, hr, hhir⟩
        exact ⟨e'', List.mem_cons_of_mem _ he'', h1, h2⟩
    | some r0 =>
      dsimp only
      by_cases hle : hi ≤ r0
      · rw [if_pos hle]
        rcases findVersionLoop_shape majF minF es r0 e.cFileName with ⟨h1, h2⟩ |
            ⟨e', he', h1, h2⟩
        · exact ⟨e, List.mem_cons_self e es, by rw [h1, hm], h2⟩
        · exact ⟨e', List.mem_cons_of_mem _ he', h1, h2⟩
      · rw [if_neg hle]
        obtain ⟨e', he', r, hr, hhir⟩ := h
        rcases List.mem_cons.mp he' with rfl | he'
        · rw [hm] at hr
          injection hr with hrr
          exact absurd (hrr ▸ hhir) hle
        · obtain ⟨e'', he'', h1, h2⟩ := ih hi found ⟨e', he', r, hr, hhir⟩
          exact ⟨e'', List.mem_cons_of_mem _ he'', h1, h2⟩

/-- When no entry matches, the loop returns its accumulators unchanged. -/
theorem findVersionLoop_nomatch (majF minF : Int) (es : List FindData)
    (hnone : ∀ e ∈ es, matchRevision majF minF e = none) :
    ∀ hi found, findVersionLoop majF minF es hi found = (hi, found) := by
  induction es with
  | nil => intro hi found; rfl
  | cons e es ih =>
    intro hi found
    rw [findVersionLoop_cons, hnone e (List.mem_cons_self e es)]
    exact ih (fun e' he' => hnone e' (List.mem_cons_of_mem _ he')) hi found

/-- A name that parses as a version is nonempty. -/
theorem scanVersion_ne_nil (name : List Char) (v : Int × Int × Int)
    (h : scanVersion name = some v) : name ≠ [] := by
  intro hn
  subst hn
  simp [scanVersion, scanInt, skipWs, takeDigits] at h

/-- The spec's description of a winning candidate: the name of a matching
on-disk subdirectory whose revision is maximal among all matching entries. -/
def isBestVersionPick (majF minF : Int) (entries : List FindData)
    (name : List Char) : Prop :=
  ∃ e ∈ entries, e.cFileName = name ∧
    ∃ r, matchRevision majF minF e = some r ∧
      ∀ e' ∈ entries, ∀ r', matchRevision majF minF e' = some r' → r' ≤ r

/-- `FindDotNetVersion` selects a maximal-revision exact-major/minor match
when one exists (given that on-disk revisions are nonnegative), and fails
exactly when no entry matches. -/
theorem FindDotNetVersion_spec (majF minF : Int) (entries : List FindData)
    (dir : List Char)
    (hnonneg : ∀ e ∈ entries, ∀ r, matchRevision majF minF e = some r → 0 ≤ r) :
    ((∃ e ∈ entries, (matchRevision majF minF e).isSome = true) →
      ∃ name, isBestVersionPick majF minF entries name ∧
        FindDotNetVersion majF minF entries dir = some (dir ++ name)) ∧
    ((∀ e ∈ entries, matchRevision majF minF e = none) →
      FindDotNetVersion majF minF entries dir = none) := by
  constructor
  · intro h
    obtain ⟨e, he, hsome⟩ := h
    obtain ⟨r, hr⟩ := Option.isSome_iff_exists.mp hsome
    have hfound := findVersionLoop_found majF minF entries 0 []
      ⟨e, he, r, hr, hnonneg e he r hr⟩
    obtain ⟨e', he', h1, h2⟩ := hfound
    refine ⟨e'.cFileName, ⟨e', he', rfl, ?_⟩, ?_⟩
    · exact ⟨(findVersionLoop majF minF entries 0 []).1, h1,
        fun e'' he'' r'' hr'' =>
          (findVersionLoop_bound majF minF entries 0 []).2 e'' he'' r'' hr''⟩
    · have hne : e'.cFileName ≠ [] := by
        have : (matchRevision majF minF e').isSome = true := by rw [h1]; rfl
        unfold matchRevision at this
        by_cases hd : e'.isDirectory = true
        · rw [if_pos hd] at this
          cases hs : scanVersion e'.cFileName with
          | none => simp [hs] at this
          | some v => exact scanVersion_ne_nil e'.cFileName v hs
        · rw [if_neg hd] at this; simp at this
      have hlen : 0 < (findVersionLoop majF minF entries 0 []).2.length := by
        rw [h2]
        cases hc : e'.cFileName with
        | nil => exact absurd hc hne
        | cons a as => simp
      unfold FindDotNetVersion
      rw [if_pos hlen, h2]
  · intro h
    unfold FindDotNetVersion
    rw [findVersionLoop_nomatch majF minF entries h 0 []]
    simp

/-! ## Process-wide hosting state and environment
(hostcoreclr.cpp lines 43-49, 343-419, 631-757) -/

/-- The process-wide globals of hostcoreclr.cpp that the hosting claims
concern: `g_hostingInitialized`, `g_hostRuntimeDirectory` (null = not yet
pinned/cached), `g_symbolStoreInitialized`. -/
structure GlobalState where
  hostingInitialized : Bool
  hostRuntimeDirectory : Option (List Char)
  symbolStoreInitialized : Bool
deriving DecidableEq, Repr

/-- `DIRECTORY_SEPARATOR_STR_A` on FEATURE_PAL. -/
def dirSep : Char := '/'

/-- `g_linuxPaths` (hostcoreclr.cpp lines 344-349). -/
def g_linuxPaths : List (List Char) :=
  [String.data ("/rh-dotnet21/root/usr/bin/dotnet/shared/Microsoft.NETCore.App"),
   String.data ("/rh-dotnet20/root/usr/bin/dotnet/shared/Microsoft.NETCore.App"),
   String.data ("/usr/share/dotnet/shared/Microsoft.NETCore.App")]

/-- The root-probing loop of `GetHostRuntime`: assign each candidate in order
and stop at the first that `access()` reports present; when none is present
the last assignment stands. -/
def chooseRoot (accessOk : List Char → Bool) : List (List Char) → List Char
  | [] => []
  | [p] => p
  | p :: rest => if accessOk p then p else chooseRoot accessOk rest

/-- The hrs `coreclr_create_delegate` returns for the ten named operations
bound by `InitializeHosting` (hostcoreclr.cpp lines 744-753, in order). -/
structure DelegateHrs where
  initializeSymbolStoreHr : Int
  displaySymbolStoreHr : Int
  disableSymbolStoreHr : Int
  loadNativeSymbolsHr : Int
  loadSymbolsForModuleHr : Int
  disposeHr : Int
  resolveSequencePointHr : Int
  getLocalVariableNameHr : Int
  getLineByILOffsetHr : Int
  getMetadataLocatorHr : Int
deriving DecidableEq, Repr

/-- The ten binding results in source order. -/
def delegateHrList (d : DelegateHrs) : List Int :=
  [d.initializeSymbolStoreHr, d.displaySymbolStoreHr, d.disableSymbolStoreHr,
   d.loadNativeSymbolsHr, d.loadSymbolsForModuleHr, d.disposeHr,
   d.resolveSequencePointHr, d.getLocalVariableNameHr, d.getLineByILOffsetHr,
   d.getMetadataLocatorHr]

/-- Oracles for the external steps of the hosting bootstrap (FEATURE_PAL/Linux
path): the `access()` probe of the install roots, the install root's directory
listing, the debuggee runtime's own directory (`GetCoreClrDirectory`; `none`
models its failure), the PAL directory lookup, `dlopen` of the hosting
coreclr, the two `dlsym` entry-point lookups, the entry-point executable path
lookup, `coreclr_initialize`'s hr, and the ten `coreclr_create_delegate` hrs. -/
structure HostingEnv where
  accessOk : List Char → Bool
  rootEntries : List FindData
  coreClrDir : Option (List Char)
  palDirOk : Bool
  loadLibOk : Bool
  entryPointsOk : Bool
  entryExeOk : Bool
  initCoreCLRHr : Int
  createDelegateHrs : DelegateHrs

/-- The chosen install root with its trailing separator
(`hostRuntimeDirectory.append(DIRECTORY_SEPARATOR_STR_A)`). -/
def installRoot (env : HostingEnv) : List Char :=
  chooseRoot env.accessOk g_linuxPaths ++ [dirSep]

/-- `GetHostRuntime` (hostcoreclr.cpp lines 357-419, FEATURE_PAL/Linux path):
reuse the pinned/cached `g_hostRuntimeDirectory` when set; otherwise search
the chosen install root for the highest 2.1.x version, else 2.2.x, else
3.0.x, else fall back to the debuggee runtime's own directory
(`GetCoreClrDirectory`), and cache the winner in `g_hostRuntimeDirectory`.
Output: (hr, the directory on success, new state).  (The source also derives
`coreClrPath` = directory + separator + the coreclr library name; the claims
do not concern it.) -/
def GetHostRuntime (env : HostingEnv) (st : GlobalState) :
    (Int × Option (List Char)) × GlobalState :=
  match st.hostRuntimeDirectory with
  | some dir => ((S_OK, some dir), st)
  | none =>
    match FindDotNetVersion 2 1 env.rootEntries (installRoot env) with
    | some dir => ((S_OK, some dir), { st with hostRuntimeDirectory := some dir })
    | none =>
      match FindDotNetVersion 2 2 env.rootEntries (installRoot env) with
      | some dir => ((S_OK, some dir), { st with hostRuntimeDirectory := some dir })
      | none =>
        match FindDotNetVersion 3 0 env.rootEntries (installRoot env) with
        | some dir => ((S_OK, some dir), { st with hostRuntimeDirectory := some dir })
        | none =>
          match env.coreClrDir with
          | some dir => ((S_OK, some dir), { st with hostRuntimeDirectory := some dir })
          | none => ((E_FAIL, none), st)

/-- Unfolding `matchRevision … = some r`. -/
theorem matchRevision_eq_some (majF minF : Int) (e : FindData) (r : Int)
    (h : matchRevision majF minF e = some r) :
    e.isDirectory = true ∧ scanVersion e.cFileName = some (majF, minF, r) := by
  unfold matchRevision at h
  by_cases hd : e.isDirectory = true
  · rw [if_pos hd] at h
    cases hs : scanVersion e.cFileName with
    | none => rw [hs] at h; exact Option.noConfusion h
    | some v =>
      obtain ⟨a, b, rev⟩ := v
      rw [hs] at h
      dsimp only at h
      by_cases hab : a = majF ∧ b = minF
      · rw [if_pos hab] at h
        injection h with h
        obtain ⟨ha, hb⟩ := hab
        subst ha; subst hb; subst h
        exact ⟨hd, rfl⟩
      · rw [if_neg hab] at h; exact Option.noConfusion h
  · rw [if_neg hd] at h; exact Option.noConfusion h

/-! ### Claim C4 -/

/-- C4: when no hosting directory has been pinned, runtime-directory
resolution enumerates the version-shaped subdirectories of the chosen install
root and selects the exact-major/minor match with maximal revision for 2.1;
if none exists it tries 2.2, then 3.0, each with maximal revision; only when
all three fail does it fall back to the debuggee runtime's own directory; the
winning directory is cached, and any call that sees a cached/pinned directory
returns it without consulting the environment at all. -/
theorem C4_runtime_version_selection (env : HostingEnv) (st : GlobalState)
    (hpin : st.hostRuntimeDirectory = none)
    (hnonneg : ∀ e ∈ env.rootEntries,
      0 ≤ (matchRevision 2 1 e).getD 0 ∧ 0 ≤ (matchRevision 2 2 e).getD 0 ∧
      0 ≤ (matchRevision 3 0 e).getD 0) :
    ((∃ e ∈ env.rootEntries, (matchRevision 2 1 e).isSome = true) →
      ∃ name, isBestVersionPick 2 1 env.rootEntries name ∧
        GetHostRuntime env st =
          ((S_OK, some (installRoot env ++ name)),
            { st with hostRuntimeDirectory := some (installRoot env ++ name) })) ∧
    ((∀ e ∈ env.rootEntries, matchRevision 2 1 e = none) →
      (∃ e ∈ env.rootEntries, (matchRevision 2 2 e).isSome = true) →
      ∃ name, isBestVersionPick 2 2 env.rootEntries name ∧
        GetHostRuntime env st =
          ((S_OK, some (installRoot env ++ name)),
            { st with hostRuntimeDirectory := some (installRoot env ++ name) })) ∧
    ((∀ e ∈ env.rootEntries, matchRevision 2 1 e = none) →
      (∀ e ∈ env.rootEntries, matchRevision 2 2 e = none) →
      (∃ e ∈ env.rootEntries, (matchRevision 3 0 e).isSome = true) →
      ∃ name, isBestVersionPick 3 0 env.rootEntries name ∧
        GetHostRuntime env st =
          ((S_OK, some (installRoot env ++ name)),
            { st with hostRuntimeDirectory := some (installRoot env ++ name) })) ∧
    ((∀ e ∈ env.rootEntries, matchRevision 2 1 e = none) →
      (∀ e ∈ env.rootEntries, matchRevision 2 2 e = none) →
      (∀ e ∈ env.rootEntries, matchRevision 3 0 e = none) →
      (∀ d, env.coreClrDir = some d →
        GetHostRuntime env st =
          ((S_OK, some d), { st with hostRuntimeDirectory := some d })) ∧
      (env.coreClrDir = none → GetHostRuntime env st = ((E_FAIL, none), st))) ∧
    (∀ env2 st2 d, st2.hostRuntimeDirectory = some d →
      GetHostRuntime env2 st2 = ((S_OK, some d), st2)) := by
  have h21 : ∀ e ∈ env.rootEntries, ∀ r, matchRevision 2 1 e = some r → 0 ≤ r := by
    intro e he r h
    have hx := (hnonneg e he).1
    rw [h] at hx
    simpa using hx
  have h22 : ∀ e ∈ env.rootEntries, ∀ r, matchRevision 2 2 e = some r → 0 ≤ r := by
    intro e he r h
    have hx := (hnonneg e he).2.1
    rw [h] at hx
    simpa using hx
  have h30 : ∀ e ∈ env.rootEntries, ∀ r, matchRevision 3 0 e = some r → 0 ≤ r := by
    intro e he r h
    have hx := (hnonneg e he).2.2
    rw [h] at hx
    simpa using hx
  refine ⟨?_, ?_, ?_, ?_, ?_⟩
  · intro hmatch
    obtain ⟨name, hbest, heq⟩ :=
      (FindDotNetVersion_spec 2 1 env.rootEntries (installRoot env) h21).1 hmatch
    refine ⟨name, hbest, ?_⟩
    unfold GetHostRuntime
    simp only [hpin, heq]
  · intro hall21 hmatch
    have hn21 := (FindDotNetVersion_spec 2 1 env.rootEntries (installRoot env) h21).2 hall21
    obtain ⟨name, hbest, heq⟩ :=
      (FindDotNetVersion_spec 2 2 env.rootEntries (installRoot env) h22).1 hmatch
    refine ⟨name, hbest, ?_⟩
    unfold GetHostRuntime
    simp only [hpin, hn21, heq]
  · intro hall21 hall22 hmatch
    have hn21 := (FindDotNetVersion_spec 2 1 env.rootEntries (installRoot env) h21).2 hall21
    have hn22 := (FindDotNetVersion_spec 2 2 env.rootEntries (installRoot env) h22).2 hall22
    obtain ⟨name, hbest, heq⟩ :=
      (FindDotNetVersion_spec 3 0 env.rootEntries (installRoot env) h30).1 hmatch
    refine ⟨name, hbest, ?_⟩
    unfold GetHostRuntime
    simp only [hpin, hn21, hn22, heq]
  · intro hall21 hall22 hall30
    have hn21 := (FindDotNetVersion_spec 2 1 env.rootEntries (installRoot env) h21).2 hall21
    have hn22 := (FindDotNetVersion_spec 2 2 env.rootEntries (installRoot env) h22).2 hall22
    have hn30 := (FindDotNetVersion_spec 3 0 env.rootEntries (installRoot env) h30).2 hall30
    constructor
    · intro d hd
      unfold GetHostRuntime
      simp only [hpin, hn21, hn22, hn30, hd]
    · intro hd
      unfold GetHostRuntime
      simp only [hpin, hn21, hn22, hn30, hd]
  · intro env2 st2 d h
    unfold GetHostRuntime
    simp only [h]

/-- A concrete install-root listing for the C4 witness: two 2.1.x candidates
and one 3.0.x candidate. -/
def c4Entries : List FindData :=
  [⟨['2', '.', '1', '.', '3'], true⟩,
   ⟨['2', '.', '1', '.', '7'], true⟩,
   ⟨['3', '.', '0', '.', '0'], true⟩]

/-- A concrete hosting environment for the witnesses. -/
def c4Env : HostingEnv where
  accessOk := fun _ => true
  rootEntries := c4Entries
  coreClrDir := none
  palDirOk := true
  loadLibOk := true
  entryPointsOk := true
  entryExeOk := true
  initCoreCLRHr := 0
  createDelegateHrs := ⟨0, 0, 0, 0, 0, 0, 0, 0, 0, 0⟩

/-- The fresh process state: nothing initialized, nothing pinned. -/
def stInit : GlobalState := ⟨false, none, false⟩

/-- Witness for C4: with 2.1.x candidates on disk, resolution picks a best
2.1 candidate, returns the root-prefixed directory and caches it. -/
theorem C4_witness :
    ∃ name, isBestVersionPick 2 1 c4Env.rootEntries name ∧
      GetHostRuntime c4Env stInit =
        ((S_OK, some (installRoot c4Env ++ name)),
          { stInit with hostRuntimeDirectory := some (installRoot c4Env ++ name) }) :=
  (C4_runtime_version_selection c4Env stInit rfl (by decide)).1 (by decide)

/-! ## InitializeHosting (hostcoreclr.cpp lines 631-757)

Guarded by `g_hostingInitialized`; on the not-yet-initialized path it resolves
the hosting runtime directory, loads the hosting coreclr and its two entry
points, builds the TPA/app-paths lists (no failure path; modeled separately
below), starts the runtime, and binds the ten named operations, any single
failure aborting the bootstrap before the flag is set. -/

/-- The hr of the first failing binding, if any (`IfFailRet` chain). -/
def firstFailingHr : List Int → Option Int
  | [] => none
  | hr :: rest => if hr < 0 then some hr else firstFailingHr rest

/-- `InitializeHosting`.  Output: (returned hr, new state). -/
def InitializeHosting (env : HostingEnv) (st : GlobalState) : Int × GlobalState :=
  if st.hostingInitialized then (S_OK, st)
  else
    let hrRt := (GetHostRuntime env st).1.1
    let st1 := (GetHostRuntime env st).2
    if hrRt < 0 then (hrRt, st1)
    else if env.palDirOk = false then (E_FAIL, st1)
    else if env.loadLibOk = false then (E_FAIL, st1)
    else if env.entryPointsOk = false then (E_FAIL, st1)
    -- the TPA and app-paths list construction sits here in the source and
    -- cannot fail
    else if env.entryExeOk = false then (E_FAIL, st1)
    else if env.initCoreCLRHr < 0 then (env.initCoreCLRHr, st1)
    else
      match firstFailingHr (delegateHrList env.createDelegateHrs) with
      | some hr => (hr, st1)
      | none =>
        (env.createDelegateHrs.getMetadataLocatorHr,
          { st1 with hostingInitialized := true })

/-- Full success of every bootstrap step: runtime-directory resolution, PAL
directory, library load, entry points, executable path, runtime start, and
all ten operation bindings. -/
def bootstrapOk (env : HostingEnv) (st : GlobalState) : Prop :=
  0 ≤ (GetHostRuntime env st).1.1 ∧ env.palDirOk = true ∧ env.loadLibOk = true ∧
  env.entryPointsOk = true ∧ env.entryExeOk = true ∧ 0 ≤ env.initCoreCLRHr ∧
  ∀ hr ∈ delegateHrList env.createDelegateHrs, 0 ≤ hr

/-- `firstFailingHr` finds nothing iff every hr succeeds. -/
theorem firstFailingHr_none_iff (l : List Int) :
    firstFailingHr l = none ↔ ∀ hr ∈ l, 0 ≤ hr := by
  induction l with
  | nil => simp [firstFailingHr]
  | cons hr rest ih =>
    unfold firstFailingHr
    by_cases h : hr < 0
    · simp only [if_pos h]
      constructor
      · intro hc; exact Option.noConfusion hc
      · intro hc; exact absurd (hc hr (List.mem_cons_self hr rest)) (not_le.mpr h)
    · simp only [if_neg h, ih]
      constructor
      · intro hc hr' hm
        rcases List.mem_cons.mp hm with rfl | hm
        · exact not_lt.mp h
        · exact hc hr' hm
      · intro hc hr' hm
        exact hc hr' (List.mem_cons_of_mem _ hm)

/-- A found failing hr indeed fails. -/
theorem firstFailingHr_some_lt (l : List Int) (hr : Int)
    (h : firstFailingHr l = some hr) : hr < 0 := by
  induction l with
  | nil => exact Option.noConfusion h
  | cons hr0 rest ih =>
    unfold firstFailingHr at h
    by_cases h0 : hr0 < 0
    · rw [if_pos h0] at h
      injection h with h
      rw [← h]; exact h0
    · rw [if_neg h0] at h
      exact ih h

/-- `GetHostRuntime` never touches the two initialization flags. -/
theorem GetHostRuntime_state (env : HostingEnv) (st : GlobalState) :
    (GetHostRuntime env st).2.hostingInitialized = st.hostingInitialized ∧
    (GetHostRuntime env st).2.symbolStoreInitialized = st.symbolStoreInitialized := by
  unfold GetHostRuntime
  cases st.hostRuntimeDirectory with
  | some dir => exact ⟨rfl, rfl⟩
  | none =>
    cases FindDotNetVersion 2 1 env.rootEntries (installRoot env) with
    | some dir => exact ⟨rfl, rfl⟩
    | none =>
      cases FindDotNetVersion 2 2 env.rootEntries (installRoot env) with
      | some dir => exact ⟨rfl, rfl⟩
      | none =>
        cases FindDotNetVersion 3 0 env.rootEntries (installRoot env) with
        | some dir => exact ⟨rfl, rfl⟩
        | none =>
          cases env.coreClrDir with
          | some dir => exact ⟨rfl, rfl⟩
          | none => exact ⟨rfl, rfl⟩

/-- On a not-yet-initialized state the bootstrap either fully succeeds —
returning success and committing the flag — or fails some step — returning a
failing hr with the flag still unset; the symbol-store flag is untouched
either way. -/
theorem InitializeHosting_dichotomy (env : HostingEnv) (st : GlobalState)
    (h0 : st.hostingInitialized = false) :
    (bootstrapOk env st ∧ 0 ≤ (InitializeHosting env st).1 ∧
      (InitializeHosting env st).2.hostingInitialized = true ∧
      (InitializeHosting env st).2.symbolStoreInitialized = st.symbolStoreInitialized) ∨
    (¬ bootstrapOk env st ∧ (InitializeHosting env st).1 < 0 ∧
      (InitializeHosting env st).2.hostingInitialized = false ∧
      (InitializeHosting env st).2.symbolStoreInitialized = st.symbolStoreInitialized) := by
  have hst1 := GetHostRuntime_state env st
  unfold InitializeHosting
  simp only [h0, Bool.false_eq_true, if_false]
  by_cases hrt : (GetHostRuntime env st).1.1 < 0
  · rw [if_pos hrt]
    exact Or.inr ⟨fun hb => absurd hb.1 (not_le.mpr hrt), hrt,
      h0 ▸ hst1.1, hst1.2⟩
  · rw [if_neg hrt]
    by_cases hpal : env.palDirOk = false
    · rw [if_pos hpal]
      refine Or.inr ⟨fun hb => ?_, (by decide : E_FAIL < 0), h0 ▸ hst1.1, hst1.2⟩
      rw [hb.2.1] at hpal; exact Bool.noConfusion hpal
    · rw [if_neg hpal]
      by_cases hlib : env.loadLibOk = false
      · rw [if_pos hlib]
        refine Or.inr ⟨fun hb => ?_, (by decide : E_FAIL < 0), h0 ▸ hst1.1, hst1.2⟩
        rw [hb.2.2.1] at hlib; exact Bool.noConfusion hlib
      · rw [if_neg hlib]
        by_cases hep : env.entryPointsOk = false
        · rw [if_pos hep]
          refine Or.inr ⟨fun hb => ?_, (by decide : E_FAIL < 0), h0 ▸ hst1.1, hst1.2⟩
          rw [hb.2.2.2.1] at hep; exact Bool.noConfusion hep
        · rw [if_neg hep]
          by_cases hexe : env.entryExeOk = false
          · rw [if_pos hexe]
            refine Or.inr ⟨fun hb => ?_, (by decide : E_FAIL < 0), h0 ▸ hst1.1, hst1.2⟩
            rw [hb.2.2.2.2.1] at hexe; exact Bool.noConfusion hexe
          · rw [if_neg hexe]
            by_cases hinit : env.initCoreCLRHr < 0
            · rw [if_pos hinit]
              exact Or.inr ⟨fun hb => absurd hb.2.2.2.2.2.1 (not_le.mpr hinit),
                hinit, h0 ▸ hst1.1, hst1.2⟩
            · rw [if_neg hinit]
              cases hff : firstFailingHr (delegateHrList env.createDelegateHrs) with
              | some hr =>
                refine Or.inr ⟨fun hb => ?_, firstFailingHr_some_lt _ hr hff,
                  h0 ▸ hst1.1, hst1.2⟩
                rw [(firstFailingHr_none_iff _).mpr hb.2.2.2.2.2.2] at hff
                exact Option.noConfusion hff
              | none =>
                have hall := (firstFailingHr_none_iff _).mp hff
                refine Or.inl ⟨⟨not_lt.mp hrt,
                  Bool.not_eq_false _ ▸ Bool.of_not_eq_false hpal,
                  Bool.of_not_eq_false hlib, Bool.of_not_eq_false hep,
                  Bool.of_not_eq_false hexe, not_lt.mp hinit, hall⟩,
                  hall _ (by simp [delegateHrList]), rfl, hst1.2⟩

/-- An already-initialized state short-circuits to `S_OK` with no state
change, independently of the environment. -/
theorem InitializeHosting_already (env : HostingEnv) (st : GlobalState)
    (h0 : st.hostingInitialized = true) :
    InitializeHosting env st = (S_OK, st) := by
  unfold InitializeHosting
  simp [h0]

/-! ### Claim C2 -/

/-- C2: `g_hostingInitialized` becomes true exactly when it already was or
every bootstrap step — runtime resolution, library load, entry points,
executable path, runtime start, and all ten operation bindings — succeeds
(`bootstrapOk`); a failed bootstrap returns a failing hr with the flag still
unset, and the next call runs the bootstrap again (so a later environment in
which every step succeeds initializes and returns success); once the flag is
set, every call returns `S_OK` immediately with no state change and without
consulting the environment. -/
theorem C2_bootstrap_flag (env : HostingEnv) (st : GlobalState) :
    (st.hostingInitialized = true → InitializeHosting env st = (S_OK, st)) ∧
    ((InitializeHosting env st).2.hostingInitialized = true ↔
      (st.hostingInitialized = true ∨ bootstrapOk env st)) ∧
    (st.hostingInitialized = false → bootstrapOk env st →
      0 ≤ (InitializeHosting env st).1 ∧
      (InitializeHosting env st).2.hostingInitialized = true) ∧
    (st.hostingInitialized = false → ¬ bootstrapOk env st →
      (InitializeHosting env st).1 < 0 ∧
      (InitializeHosting env st).2.hostingInitialized = false ∧
      ∀ env2, bootstrapOk env2 (InitializeHosting env st).2 →
        0 ≤ (InitializeHosting env2 (InitializeHosting env st).2).1 ∧
        (InitializeHosting env2
            (InitializeHosting env st).2).2.hostingInitialized = true) := by
  refine ⟨fun h0 => InitializeHosting_already env st h0, ?_, ?_, ?_⟩
  · by_cases h0 : st.hostingInitialized = true
    · rw [InitializeHosting_already env st h0]
      exact ⟨fun _ => Or.inl h0, fun _ => h0⟩
    · have h0' : st.hostingInitialized = false := by
        revert h0; cases st.hostingInitialized <;> simp
      rcases InitializeHosting_dichotomy env st h0' with
        ⟨hb, _, hflag, _⟩ | ⟨hnb, _, hflag, _⟩
      · rw [hflag]
        exact ⟨fun _ => Or.inr hb, fun _ => rfl⟩
      · rw [hflag]
        constructor
        · intro hc; exact Bool.noConfusion hc
        · rintro (hc | hc)
          · exact absurd hc h0
          · exact absurd hc hnb
  · intro h0 hb
    rcases InitializeHosting_dichotomy env st h0 with
      ⟨_, hge, hflag, _⟩ | ⟨hnb, _, _, _⟩
    · exact ⟨hge, hflag⟩
    · exact absurd hb hnb
  · intro h0 hnb
    rcases InitializeHosting_dichotomy env st h0 with
      ⟨hb, _, _, _⟩ | ⟨_, hlt, hflag, _⟩
    · exact absurd hb hnb
    · refine ⟨hlt, hflag, ?_⟩
      intro env2 hb2
      rcases InitializeHosting_dichotomy env2 _ hflag with
        ⟨_, hge2, hf2, _⟩ | ⟨hnb2, _, _, _⟩
      · exact ⟨hge2, hf2⟩
      · exact absurd hb2 hnb2

/-! ## InitializeSymbolStore (hostcoreclr.cpp lines 776-816) -/

/-- `InitializeSymbolStore(logging, msdl, symweb, symbolServer,
cacheDirectory)` (lines 776-789): ensure the hosting bootstrap (`IfFailRet`),
invoke the bound initialize operation — its managed BOOL result is `initOk` —
and mark `g_symbolStoreInitialized` only when it reported success.
Output: (hr, new state). -/
def InitializeSymbolStore (env : HostingEnv) (initOk : Bool) (st : GlobalState) :
    Int × GlobalState :=
  let r := InitializeHosting env st
  if r.1 < 0 then (r.1, r.2)
  else if initOk = false then (E_FAIL, r.2)
  else (S_OK, { r.2 with symbolStoreInitialized := true })

/-- The no-argument `InitializeSymbolStore()` (lines 794-816, dbgeng body):
when the store is not yet marked initialized, set `g_symbolStoreInitialized`
first, then read the debugger's symbol path (hr `getPathHr`) and, when it is
non-empty, invoke the parse operation; the operation's boolean result
(`parseOk`) is only logged and never affects the state.  Output: (new state,
whether the parse operation was invoked). -/
def InitializeSymbolStoreDefault (getPathHr : Int) (symbolPath : List Char)
    (parseOk : Bool) (st : GlobalState) : GlobalState × Bool :=
  if st.symbolStoreInitialized then (st, false)
  else
    let st1 := { st with symbolStoreInitialized := true }
    if getPathHr < 0 then (st1, false)
    else if symbolPath.length = 0 then (st1, false)
    else (st1, true)

/-- `InitializeHosting` never touches the symbol-store flag. -/
theorem InitializeHosting_symflag (env : HostingEnv) (st : GlobalState) :
    (InitializeHosting env st).2.symbolStoreInitialized =
      st.symbolStoreInitialized := by
  by_cases h0 : st.hostingInitialized = true
  · rw [InitializeHosting_already env st h0]
  · have h0' : st.hostingInitialized = false := by
      revert h0; cases st.hostingInitialized <;> simp
    rcases InitializeHosting_dichotomy env st h0' with
      ⟨_, _, _, h⟩ | ⟨_, _, _, h⟩ <;> exact h

/-- A successful `InitializeHosting` leaves the hosting flag set. -/
theorem InitializeHosting_success_flag (env : HostingEnv) (st : GlobalState)
    (h : 0 ≤ (InitializeHosting env st).1) :
    (InitializeHosting env st).2.hostingInitialized = true := by
  by_cases h0 : st.hostingInitialized = true
  · rw [InitializeHosting_already env st h0]; exact h0
  · have h0' : st.hostingInitialized = false := by
      revert h0; cases st.hostingInitialized <;> simp
    rcases InitializeHosting_dichotomy env st h0' with
      ⟨_, _, hf, _⟩ | ⟨_, hlt, _, _⟩
    · exact hf
    · exact absurd h (not_le.mpr hlt)

/-- After the no-argument initialization the store flag is always set. -/
theorem InitializeSymbolStoreDefault_enabled (getPathHr : Int)
    (symbolPath : List Char) (parseOk : Bool) (st : GlobalState) :
    (InitializeSymbolStoreDefault getPathHr symbolPath parseOk
      st).1.symbolStoreInitialized = true := by
  unfold InitializeSymbolStoreDefault
  cases hv : st.symbolStoreInitialized
  · simp only [hv, Bool.false_eq_true, if_false]
    split_ifs <;> rfl
  · simp [hv]

/-! ### Claim C10 -/

/-- C10: the no-argument symbol-store initialization sets the process-wide
flag before invoking the search-path parse operation, so the store is marked
enabled even when parsing fails (the parse result never affects the state),
and a later call observes the flag and does nothing (never retried); by
contrast, the explicit-argument initialization sets the flag only when its
initialize operation reports success: on failure it returns `E_FAIL` with the
flag unchanged. -/
theorem C10_symbol_store_flag (env : HostingEnv) (getPathHr : Int)
    (symbolPath : List Char) (parseOk parseOk2 initOk : Bool)
    (st : GlobalState) :
    (st.symbolStoreInitialized = false →
      (InitializeSymbolStoreDefault getPathHr symbolPath parseOk
          st).1.symbolStoreInitialized = true ∧
      InitializeSymbolStoreDefault getPathHr symbolPath parseOk st =
        InitializeSymbolStoreDefault getPathHr symbolPath parseOk2 st) ∧
    (st.symbolStoreInitialized = true →
      InitializeSymbolStoreDefault getPathHr symbolPath parseOk st =
        (st, false)) ∧
    (0 ≤ (InitializeHosting env st).1 → initOk = false →
      InitializeSymbolStore env initOk st =
        (E_FAIL, (InitializeHosting env st).2) ∧
      (InitializeHosting env st).2.symbolStoreInitialized =
        st.symbolStoreInitialized) ∧
    (0 ≤ (InitializeHosting env st).1 → initOk = true →
      InitializeSymbolStore env initOk st =
        (S_OK, { (InitializeHosting env st).2 with
          symbolStoreInitialized := true })) ∧
    ((InitializeHosting env st).1 < 0 →
      InitializeSymbolStore env initOk st = InitializeHosting env st ∧
      (InitializeHosting env st).2.symbolStoreInitialized =
        st.symbolStoreInitialized) := by
  refine ⟨fun hss =>
      ⟨InitializeSymbolStoreDefault_enabled getPathHr symbolPath parseOk st, rfl⟩,
    fun hss => ?_, fun hge hnok => ?_, fun hge hok => ?_, fun hlt => ?_⟩
  · unfold InitializeSymbolStoreDefault
    simp [hss]
  · have hn : ¬ (InitializeHosting env st).1 < 0 := not_lt.mpr hge
    refine ⟨?_, InitializeHosting_symflag env st⟩
    unfold InitializeSymbolStore
    simp only [hn, if_false, hnok, if_true]
  · have hn : ¬ (InitializeHosting env st).1 < 0 := not_lt.mpr hge
    unfold InitializeSymbolStore
    simp only [hn, if_false, hok, Bool.true_eq_false, if_true]
  · refine ⟨?_, InitializeHosting_symflag env st⟩
    unfold InitializeSymbolStore
    simp only [hlt, if_true]

/-! ## DataTarget::GetMetadata (datatarget.cpp lines 293-314) -/

/-- `GetMetadata`: run the hosting bootstrap, returning its hr unchanged when
it fails; otherwise run the no-argument symbol-store initialization and
forward the request to the bound metadata-locator operation, whose hr is
`locatorHr`.  Output: (hr, new state, whether the locator was invoked). -/
def GetMetadata (env : HostingEnv) (getPathHr : Int) (symbolPath : List Char)
    (parseOk : Bool) (locatorHr : Int) (st : GlobalState) :
    Int × GlobalState × Bool :=
  let r := InitializeHosting env st
  if r.1 < 0 then (r.1, r.2, false)
  else
    (locatorHr,
      (InitializeSymbolStoreDefault getPathHr symbolPath parseOk r.2).1, true)

/-! ### Claim C8 -/

/-- A hosting environment whose library load (`dlopen`) fails, for the C8
counterexample; the debuggee runtime directory resolves fine. -/
def c8Env : HostingEnv where
  accessOk := fun _ => true
  rootEntries := []
  coreClrDir := some ['/', 'c']
  palDirOk := true
  loadLibOk := false
  entryPointsOk := true
  entryExeOk := true
  initCoreCLRHr := 0
  createDelegateHrs := ⟨0, 0, 0, 0, 0, 0, 0, 0, 0, 0⟩

/-- C8 counterexample: when the hosting runtime's library fails to load,
`GetMetadata` fails with the bootstrap's own `E_FAIL` — not `E_UNEXPECTED` as
the claim states — and does not invoke the metadata locator. -/
theorem C8_counterexample :
    (GetMetadata c8Env 0 [] true 0 stInit).1 = E_FAIL ∧
    (GetMetadata c8Env 0 [] true 0 stInit).1 ≠ E_UNEXPECTED ∧
    (GetMetadata c8Env 0 [] true 0 stInit).2.2 = false := by
  refine ⟨by decide, by decide, by decide⟩

/-- C8 (amended): `GetMetadata` first runs the hosting bootstrap and, once it
succeeds, the no-argument symbol-store initialization, then forwards to the
bound metadata-locator operation and returns its result with both flags set;
whenever the bridge cannot initialize, the call fails with the bootstrap's
propagated error code (`E_FAIL` in the load/binding failure paths, not
`E_UNEXPECTED`) and the metadata-locator operation is not invoked. -/
theorem C8_metadata_gate (env : HostingEnv) (getPathHr : Int)
    (symbolPath : List Char) (parseOk : Bool) (locatorHr : Int)
    (st : GlobalState) :
    ((InitializeHosting env st).1 < 0 →
      GetMetadata env getPathHr symbolPath parseOk locatorHr st =
        ((InitializeHosting env st).1, (InitializeHosting env st).2, false)) ∧
    (0 ≤ (InitializeHosting env st).1 →
      GetMetadata env getPathHr symbolPath parseOk locatorHr st =
        (locatorHr,
          (InitializeSymbolStoreDefault getPathHr symbolPath parseOk
            (InitializeHosting env st).2).1, true) ∧
      (GetMetadata env getPathHr symbolPath parseOk
          locatorHr st).2.1.hostingInitialized = true ∧
      (GetMetadata env getPathHr symbolPath parseOk
          locatorHr st).2.1.symbolStoreInitialized = true) := by
  constructor
  · intro hlt
    unfold GetMetadata
    simp only [hlt, if_true]
  · intro hge
    have hn : ¬ (InitializeHosting env st).1 < 0 := not_lt.mpr hge
    have heq : GetMetadata env getPathHr symbolPath parseOk locatorHr st =
        (locatorHr,
          (InitializeSymbolStoreDefault getPathHr symbolPath parseOk
            (InitializeHosting env st).2).1, true) := by
      unfold GetMetadata
      simp only [hn, if_false]
    refine ⟨heq, ?_, ?_⟩
    · rw [heq]
      have hflag := InitializeHosting_success_flag env st hge
      have hpres : ∀ st', st'.hostingInitialized = true →
          (InitializeSymbolStoreDefault getPathHr symbolPath parseOk
            st').1.hostingInitialized = true := by
        intro st' h
        unfold InitializeSymbolStoreDefault
        cases hv : st'.symbolStoreInitialized
        · simp only [hv, Bool.false_eq_true, if_false]
          split_ifs <;> exact h
        · simp only [hv, if_true]; exact h
      exact hpres _ hflag
    · rw [heq]
      exact InitializeSymbolStoreDefault_enabled getPathHr symbolPath parseOk
        (InitializeHosting env st).2

/-- Witness for C8 (amended) at a concrete failing-bootstrap environment:
the failure path returns the propagated hr and skips the locator. -/
theorem C8_witness :
    GetMetadata c8Env 0 [] true 0 stInit =
      ((InitializeHosting c8Env stInit).1,
        (InitializeHosting c8Env stInit).2, false) :=
  (C8_metadata_gate c8Env 0 [] true 0 stInit).1 (by decide)

/-! ## AddFilesFromDirectoryToTpaList (hostcoreclr.cpp lines 60-113)

Two `FindFirstFileA` passes over one directory — pattern `*.ni.dll` first so
optimized images are preferred, then `*.dll` — appending `directory/name` for
each file whose name-without-the-matched-extension (`filenameWithoutExt`) has
not been recorded in the `addedAssemblies` set, which is seeded with
`SOSManagedDllName` (the extension's own managed entry assembly's logical
name; the macro's definition lies in a header outside the two source files,
so it is the parameter `sosName` here).  The tpa string is modelled as the
list of the appended path entries. -/

/-- The `*.ni.dll` pattern's suffix (`extLength` = 7 in the source). -/
def niExt : List Char := ['.', 'n', 'i', '.', 'd', 'l', 'l']

/-- The `*.dll` pattern's suffix (`extLength` = 4 in the source). -/
def dllExt : List Char := ['.', 'd', 'l', 'l']

/-- State threaded through the scan: the `addedAssemblies` set (a list with
membership checks) and the `tpaList` under construction. -/
structure TpaState where
  addedAssemblies : List (List Char)
  tpaList : List (List Char)

/-- `filenameWithoutExt` for a matched extension. -/
def stemOf (ext name : List Char) : List Char :=
  name.take (name.length - ext.length)

/-- One enumerated entry of a pattern pass: entries not matching the pattern
are not enumerated, directories are skipped, a logical name already in the
set is skipped, otherwise the name is recorded and `directory/name`
appended. -/
def tpaStep (directory ext : List Char) (st : TpaState) (e : FindData) :
    TpaState :=
  if ext <:+ e.cFileName then
    if e.isDirectory then st
    else
      if stemOf ext e.cFileName ∈ st.addedAssemblies then st
      else
        { addedAssemblies := stemOf ext e.cFileName :: st.addedAssemblies,
          tpaList := st.tpaList ++ [directory ++ dirSep :: e.cFileName] }
  else st

/-- One pattern pass over the directory's enumeration. -/
def tpaPass (directory ext : List Char) (entries : List FindData)
    (st : TpaState) : TpaState :=
  entries.foldl (tpaStep directory ext) st

/-- `AddFilesFromDirectoryToTpaList`. -/
def AddFilesFromDirectoryToTpaList (sosName directory : List Char)
    (entries : List FindData) (tpaList : List (List Char)) :
    List (List Char) :=
  let st0 : TpaState := { addedAssemblies := [sosName], tpaList := tpaList }
  (tpaPass directory dllExt entries (tpaPass directory niExt entries st0)).tpaList

/-- The two scans of `InitializeHosting` (hostcoreclr.cpp lines 699-704): the
extension's own module directory first, then the hosting runtime's directory,
appending into the same list. -/
def InitializeHostingTpaList (sosName sosModuleDirectory : List Char)
    (sosEntries : List FindData) (hostRuntimeDirectory : List Char)
    (runtimeEntries : List FindData) : List (List Char) :=
  AddFilesFromDirectoryToTpaList sosName hostRuntimeDirectory runtimeEntries
    (AddFilesFromDirectoryToTpaList sosName sosModuleDirectory sosEntries [])

/-- `n` names a non-directory entry of the enumeration. -/
def fileNamed (n : List Char) (entries : List FindData) : Prop :=
  ∃ e ∈ entries, e.cFileName = n ∧ e.isDirectory = false

/-! ### Lemmas about the scan -/

theorem fileNamed_cons (n : List Char) (e : FindData) (es : List FindData) :
    fileNamed n (e :: es) ↔
      (e.cFileName = n ∧ e.isDirectory = false) ∨ fileNamed n es := by
  unfold fileNamed
  constructor
  · rintro ⟨x, hx, h1, h2⟩
    rcases List.mem_cons.mp hx with rfl | hx
    · exact Or.inl ⟨h1, h2⟩
    · exact Or.inr ⟨x, hx, h1, h2⟩
  · rintro (⟨h1, h2⟩ | ⟨x, hx, h1, h2⟩)
    · exact ⟨e, List.mem_cons_self e es, h1, h2⟩
    · exact ⟨x, List.mem_cons_of_mem _ hx, h1, h2⟩

/-- Removing the suffix recovers the prefix. -/
theorem stemOf_append (a ext : List Char) : stemOf ext (a ++ ext) = a := by
  unfold stemOf
  rw [List.length_append, Nat.add_sub_cancel]
  exact List.take_left a ext

/-- The stem determines the name among names carrying the same suffix. -/
theorem stemOf_inj (ext m n : List Char) (hm : ext <:+ m) (hn : ext <:+ n)
    (h : stemOf ext m = stemOf ext n) : m = n := by
  obtain ⟨a, ha⟩ := hm
  obtain ⟨b, hb⟩ := hn
  rw [← ha, ← hb, stemOf_append, stemOf_append] at h
  rw [← ha, ← hb, h]

/-- Exhaustive description of one step. -/
theorem tpaStep_cases (d ext : List Char) (st : TpaState) (e : FindData) :
    (tpaStep d ext st e = st ∧
      (¬ ext <:+ e.cFileName ∨ e.isDirectory = true ∨
        stemOf ext e.cFileName ∈ st.addedAssemblies)) ∨
    (ext <:+ e.cFileName ∧ e.isDirectory = false ∧
      stemOf ext e.cFileName ∉ st.addedAssemblies ∧
      tpaStep d ext st e =
        { addedAssemblies := stemOf ext e.cFileName :: st.addedAssemblies,
          tpaList := st.tpaList ++ [d ++ dirSep :: e.cFileName] }) := by
  unfold tpaStep
  by_cases hsuf : ext <:+ e.cFileName
  · rw [if_pos hsuf]
    cases hd : e.isDirectory
    · simp only [Bool.false_eq_true, if_false]
      by_cases hmem : stemOf ext e.cFileName ∈ st.addedAssemblies
      · exact Or.inl ⟨if_pos hmem, Or.inr (Or.inr hmem)⟩
      · exact Or.inr ⟨hsuf, trivial, hmem, if_neg hmem⟩
    · exact Or.inl ⟨if_pos rfl, Or.inr (Or.inl rfl)⟩
  · exact Or.inl ⟨if_neg hsuf, Or.inl hsuf⟩

/-- Membership in the set after one pass. -/
theorem tpaPass_added_mem (d ext : List Char) (entries : List FindData) :
    ∀ (st : TpaState) (s : List Char),
      s ∈ (tpaPass d ext entries st).addedAssemblies ↔
        s ∈ st.addedAssemblies ∨
          ∃ n, fileNamed n entries ∧ ext <:+ n ∧ stemOf ext n = s := by
  induction entries with
  | nil => intro st s; simp [tpaPass, fileNamed]
  | cons e es ih =>
    intro st s
    have hfold : tpaPass d ext (e :: es) st = tpaPass d ext es (tpaStep d ext st e) :=
      rfl
    rw [hfold, ih]
    rcases tpaStep_cases d ext st e with ⟨heq, hwhy⟩ | ⟨hsuf, hdir, hmem, heq⟩
    · rw [heq]
      constructor
      · rintro (h | ⟨n, hn, h1, h2⟩)
        · exact Or.inl h
        · exact Or.inr ⟨n, (fileNamed_cons n e es).mpr (Or.inr hn), h1, h2⟩
      · rintro (h | ⟨n, hn, h1, h2⟩)
        · exact Or.inl h
        · rcases (fileNamed_cons n e es).mp hn with ⟨hname, hfile⟩ | hn'
          · rcases hwhy with hw | hw | hw
            · rw [hname] at hw; exact absurd h1 hw
            · rw [hfile] at hw; exact Bool.noConfusion hw
            · rw [hname, h2] at hw; exact Or.inl hw
          · exact Or.inr ⟨n, hn', h1, h2⟩
    · rw [heq]
      constructor
      · rintro (h | ⟨n, hn, h1, h2⟩)
        · rcases List.mem_cons.mp h with rfl | h
          · exact Or.inr ⟨e.cFileName, (fileNamed_cons _ e es).mpr
              (Or.inl ⟨rfl, hdir⟩), hsuf, rfl⟩
          · exact Or.inl h
        · exact Or.inr ⟨n, (fileNamed_cons n e es).mpr (Or.inr hn), h1, h2⟩
      · rintro (h | ⟨n, hn, h1, h2⟩)
        · exact Or.inl (List.mem_cons_of_mem _ h)
        · rcases (fileNamed_cons n e es).mp hn with ⟨hname, _⟩ | hn'
          · rw [← hname] at h2
            exact Or.inl (h2 ▸ List.mem_cons_self _ _)
          · exact Or.inr ⟨n, hn', h1, h2⟩

/-- Membership in the list after one pass: the starting list plus each
matching file whose stem was not already claimed at the pass's start (a
within-pass blocker sharing the stem is the same file name, hence the same
path). -/
theorem tpaPass_tpa_mem (d ext : List Char) (entries : List FindData) :
    ∀ (st : TpaState) (p : List Char),
      p ∈ (tpaPass d ext entries st).tpaList ↔
        p ∈ st.tpaList ∨
          ∃ n, p = d ++ dirSep :: n ∧ fileNamed n entries ∧ ext <:+ n ∧
            stemOf ext n ∉ st.addedAssemblies := by
  induction entries with
  | nil => intro st p; simp [tpaPass, fileNamed]
  | cons e es ih =>
    intro st p
    have hfold : tpaPass d ext (e :: es) st =
        tpaPass d ext es (tpaStep d ext st e) := rfl
    rw [hfold, ih]
    rcases tpaStep_cases d ext st e with ⟨heq, hwhy⟩ | ⟨hsuf, hdir, hmem, heq⟩
    · rw [heq]
      constructor
      · rintro (h | ⟨n, hp, hn, h1, h2⟩)
        · exact Or.inl h
        · exact Or.inr ⟨n, hp, (fileNamed_cons n e es).mpr (Or.inr hn), h1, h2⟩
      · rintro (h | ⟨n, hp, hn, h1, h2⟩)
        · exact Or.inl h
        · rcases (fileNamed_cons n e es).mp hn with ⟨hname, hfile⟩ | hn'
          · rcases hwhy with hw | hw | hw
            · rw [hname] at hw; exact absurd h1 hw
            · rw [hfile] at hw; exact Bool.noConfusion hw
            · rw [hname] at hw; exact absurd hw h2
          · exact Or.inr ⟨n, hp, hn', h1, h2⟩
    · rw [heq]
      constructor
      · rintro (h | ⟨n, hp, hn, h1, h2⟩)
        · rcases List.mem_append.mp h with h | h
          · exact Or.inl h
          · exact Or.inr ⟨e.cFileName, List.mem_singleton.mp h,
              (fileNamed_cons _ e es).mpr (Or.inl ⟨rfl, hdir⟩), hsuf, hmem⟩
        · have h2' : stemOf ext n ∉ st.addedAssemblies :=
            fun hin => h2 (List.mem_cons_of_mem _ hin)
          exact Or.inr ⟨n, hp, (fileNamed_cons n e es).mpr (Or.inr hn), h1, h2'⟩
      · rintro (h | ⟨n, hp, hn, h1, h2⟩)
        · exact Or.inl (List.mem_append.mpr (Or.inl h))
        · rcases (fileNamed_cons n e es).mp hn with ⟨hname, _⟩ | hn'
          · refine Or.inl (List.mem_append.mpr (Or.inr ?_))
            rw [hp, ← hname]
            exact List.mem_singleton.mpr rfl
          · by_cases hstem : stemOf ext n = stemOf ext e.cFileName
            · have hne := stemOf_inj ext n e.cFileName h1 hsuf hstem
              refine Or.inl (List.mem_append.mpr (Or.inr ?_))
              rw [hp, hne]
              exact List.mem_singleton.mpr rfl
            · refine Or.inr ⟨n, hp, hn', h1, ?_⟩
              intro hin
              rcases List.mem_cons.mp hin with hic | hic
              · exact hstem hic
              · exact h2 hic

/-- There is an `*.ni.dll` file with stem `s` iff the file `s ++ ".ni.dll"`
is present. -/
theorem exists_ni_stem_iff (entries : List FindData) (s : List Char) :
    (∃ m, fileNamed m entries ∧ niExt <:+ m ∧ stemOf niExt m = s) ↔
      fileNamed (s ++ niExt) entries := by
  constructor
  · rintro ⟨m, hm, hsuf, hstem⟩
    obtain ⟨a, ha⟩ := hsuf
    rw [← ha, stemOf_append] at hstem
    rw [← hstem, ha]
    exact hm
  · intro h
    exact ⟨s ++ niExt, h, ⟨s, rfl⟩, stemOf_append s niExt⟩

/-- Full membership characterization of one directory scan: the starting
list, plus every optimized-image (`.ni.dll`) file whose stem is not the
excluded entry assembly, plus every `.dll` file whose 4-character stem is
neither the excluded entry assembly nor claimed by a present
optimized-image file. -/
theorem mem_AddFiles_iff (sosName d : List Char) (entries : List FindData)
    (tpa0 : List (List Char)) (p : List Char) :
    p ∈ AddFilesFromDirectoryToTpaList sosName d entries tpa0 ↔
      p ∈ tpa0 ∨
      (∃ n, p = d ++ dirSep :: n ∧ fileNamed n entries ∧ niExt <:+ n ∧
        stemOf niExt n ≠ sosName) ∨
      (∃ n, p = d ++ dirSep :: n ∧ fileNamed n entries ∧ dllExt <:+ n ∧
        stemOf dllExt n ≠ sosName ∧
        ¬ fileNamed (stemOf dllExt n ++ niExt) entries) := by
  have hadd : ∀ s : List Char,
      s ∈ (tpaPass d niExt entries ⟨[sosName], tpa0⟩).addedAssemblies ↔
        s = sosName ∨ fileNamed (s ++ niExt) entries := by
    intro s
    rw [tpaPass_added_mem]
    simp only [List.mem_singleton]
    constructor
    · rintro (h | h)
      · exact Or.inl h
      · exact Or.inr ((exists_ni_stem_iff entries s).mp h)
    · rintro (h | h)
      · exact Or.inl h
      · exact Or.inr ((exists_ni_stem_iff entries s).mpr h)
  unfold AddFilesFromDirectoryToTpaList
  rw [tpaPass_tpa_mem, tpaPass_tpa_mem]
  constructor
  · rintro ((h | ⟨n, hp, hn, h1, h2⟩) | ⟨n, hp, hn, h1, h2⟩)
    · exact Or.inl h
    · exact Or.inr (Or.inl ⟨n, hp, hn, h1,
        fun hc => h2 (List.mem_singleton.mpr hc)⟩)
    · have h2' := (not_iff_not.mpr (hadd (stemOf dllExt n))).mp h2
      rw [not_or] at h2'
      exact Or.inr (Or.inr ⟨n, hp, hn, h1, h2'.1, h2'.2⟩)
  · rintro (h | ⟨n, hp, hn, h1, h2⟩ | ⟨n, hp, hn, h1, h2, h3⟩)
    · exact Or.inl (Or.inl h)
    · exact Or.inl (Or.inr ⟨n, hp, hn, h1,
        fun hc => h2 (List.mem_singleton.mp hc)⟩)
    · refine Or.inr ⟨n, hp, hn, h1, ?_⟩
      rw [hadd (stemOf dllExt n), not_or]
      exact ⟨h2, h3⟩

/-! ### Logical names of list entries -/

/-- The file-name component of a path: everything after the last separator. -/
def fileNamePart (p : List Char) : List Char :=
  p.foldl (fun acc c => if c = dirSep then [] else acc ++ [c]) []

/-- The logical (assembly) name of a file name: the name stripped of its
optimized-image or generic extension. -/
def logicalOfName (n : List Char) : List Char :=
  if niExt <:+ n then stemOf niExt n
  else if dllExt <:+ n then stemOf dllExt n
  else n

/-- The logical name of a tpa-list entry. -/
def logicalNameOfPath (p : List Char) : List Char :=
  logicalOfName (fileNamePart p)

theorem foldl_fileNamePart_nosep (n : List Char) (hn : dirSep ∉ n) :
    ∀ acc, n.foldl (fun acc c => if c = dirSep then [] else acc ++ [c]) acc =
      acc ++ n := by
  induction n with
  | nil => intro acc; simp
  | cons c cs ih =>
    intro acc
    have hc : ¬ c = dirSep := fun h => hn (h ▸ List.mem_cons_self c cs)
    simp only [List.foldl_cons, if_neg hc]
    rw [ih (fun h => hn (List.mem_cons_of_mem _ h))]
    simp

theorem foldl_sep_reset (n : List Char) (hn : dirSep ∉ n) :
    ∀ (x acc : List Char),
      (x ++ dirSep :: n).foldl
        (fun acc c => if c = dirSep then [] else acc ++ [c]) acc = n := by
  intro x
  induction x with
  | nil =>
    intro acc
    rw [List.nil_append, List.foldl_cons]
    show List.foldl (fun acc c => if c = dirSep then [] else acc ++ [c]) [] n = n
    rw [foldl_fileNamePart_nosep n hn []]
    exact List.nil_append n
  | cons c cs ih =>
    intro acc
    rw [List.cons_append, List.foldl_cons]
    exact ih _

theorem fileNamePart_eq (x n : List Char) (hn : dirSep ∉ n) :
    fileNamePart (x ++ dirSep :: n) = n :=
  foldl_sep_reset n hn x []

/-- Reattaching the suffix recovers the name. -/
theorem stem_decomp (ext n : List Char) (h : ext <:+ n) :
    stemOf ext n ++ ext = n := by
  obtain ⟨a, ha⟩ := h
  rw [← ha, stemOf_append]

/-- The scan's paths determine the file name. -/
theorem tpaPath_inj (d n1 n2 : List Char)
    (h : d ++ dirSep :: n1 = d ++ dirSep :: n2) : n1 = n2 := by
  have h2 := List.append_cancel_left h
  injection h2

/-- A `.dll`-suffixed name whose whole name carries the `.ni.dll` suffix has
a base name ending in `.ni`. -/
theorem ni_suffix_of_dll (L a : List Char) (h : a ++ niExt = L ++ dllExt) :
    ['.', 'n', 'i'] <:+ L := by
  have h2 : (a ++ ['.', 'n', 'i']) ++ dllExt = L ++ dllExt := by
    rw [List.append_assoc]
    exact h
  exact ⟨a, List.append_cancel_right h2⟩

/-- Distinct names sharing a logical name cannot both survive one scan. -/
theorem scan_class_inj (entries : List FindData) (n1 n2 : List Char)
    (hf1 : fileNamed n1 entries) (hf2 : fileNamed n2 entries)
    (hc1 : niExt <:+ n1 ∨ (dllExt <:+ n1 ∧
      ¬ fileNamed (stemOf dllExt n1 ++ niExt) entries))
    (hc2 : niExt <:+ n2 ∨ (dllExt <:+ n2 ∧
      ¬ fileNamed (stemOf dllExt n2 ++ niExt) entries))
    (hlg : logicalOfName n1 = logicalOfName n2) : n1 = n2 := by
  by_cases hni1 : niExt <:+ n1 <;> by_cases hni2 : niExt <:+ n2
  · unfold logicalOfName at hlg
    rw [if_pos hni1, if_pos hni2] at hlg
    exact stemOf_inj niExt n1 n2 hni1 hni2 hlg
  · rcases hc2 with h | ⟨hdll2, habs2⟩
    · exact absurd h hni2
    · unfold logicalOfName at hlg
      rw [if_pos hni1, if_neg hni2, if_pos hdll2] at hlg
      exfalso
      apply habs2
      rw [← hlg, stem_decomp niExt n1 hni1]
      exact hf1
  · rcases hc1 with h | ⟨hdll1, habs1⟩
    · exact absurd h hni1
    · unfold logicalOfName at hlg
      rw [if_neg hni1, if_pos hdll1, if_pos hni2] at hlg
      exfalso
      apply habs1
      rw [hlg, stem_decomp niExt n2 hni2]
      exact hf2
  · rcases hc1 with h | ⟨hdll1, _⟩
    · exact absurd h hni1
    · rcases hc2 with h | ⟨hdll2, _⟩
      · exact absurd h hni2
      · unfold logicalOfName at hlg
        rw [if_neg hni1, if_pos hdll1, if_neg hni2, if_pos hdll2] at hlg
        exact stemOf_inj dllExt n1 n2 hdll1 hdll2 hlg

/-! ### Claim C5 -/

/-- C5 counterexample: scanning two directories that both hold `f.dll` puts
both `a/f.dll` and `b/f.dll` in the whole list — two distinct entries with
the same logical name `f` — so the list is not de-duplicated by logical name
across the whole list (the `addedAssemblies` set is rebuilt per directory
scan). -/
theorem C5_counterexample :
    InitializeHostingTpaList ['s'] ['a'] [⟨['f', '.', 'd', 'l', 'l'], false⟩]
        ['b'] [⟨['f', '.', 'd', 'l', 'l'], false⟩] =
      [['a', '/', 'f', '.', 'd', 'l', 'l'],
       ['b', '/', 'f', '.', 'd', 'l', 'l']] ∧
    logicalNameOfPath ['a', '/', 'f', '.', 'd', 'l', 'l'] =
      logicalNameOfPath ['b', '/', 'f', '.', 'd', 'l', 'l'] ∧
    ['a', '/', 'f', '.', 'd', 'l', 'l'] ≠
      ['b', '/', 'f', '.', 'd', 'l', 'l'] := by
  refine ⟨by decide, by decide, by decide⟩

/-- C5 (amended): over one scanned directory, (1) re-scanning the same
directory adds no new entry (idempotence of membership); (2) for two files
sharing a logical name the optimized-image `.ni.dll` variant is added and the
generic `.dll` variant is excluded; (3) within one directory scan no two
distinct entries share a logical name; (4) the extension's own managed entry
assembly never appears; across the two scanned directories, however,
duplicates of a logical name may remain (see the counterexample), the
deduplication set being rebuilt per scan. -/
theorem C5_tpa_list (sosName d : List Char) (entries : List FindData)
    (tpa0 : List (List Char)) (L : List Char) :
    (∀ p, p ∈ AddFilesFromDirectoryToTpaList sosName d entries
        (AddFilesFromDirectoryToTpaList sosName d entries tpa0) ↔
      p ∈ AddFilesFromDirectoryToTpaList sosName d entries tpa0) ∧
    (fileNamed (L ++ niExt) entries → fileNamed (L ++ dllExt) entries →
      L ≠ sosName → ¬ (['.', 'n', 'i'] <:+ L) →
      (d ++ dirSep :: (L ++ niExt)) ∈
        AddFilesFromDirectoryToTpaList sosName d entries tpa0 ∧
      ((d ++ dirSep :: (L ++ dllExt)) ∉ tpa0 →
        (d ++ dirSep :: (L ++ dllExt)) ∉
          AddFilesFromDirectoryToTpaList sosName d entries tpa0)) ∧
    ((∀ e ∈ entries, dirSep ∉ e.cFileName) →
      ∀ p1 p2, p1 ∈ AddFilesFromDirectoryToTpaList sosName d entries [] →
        p2 ∈ AddFilesFromDirectoryToTpaList sosName d entries [] →
        logicalNameOfPath p1 = logicalNameOfPath p2 → p1 = p2) ∧
    (¬ (['.', 'n', 'i'] <:+ sosName) →
      (d ++ dirSep :: (sosName ++ dllExt)) ∉ tpa0 →
      (d ++ dirSep :: (sosName ++ dllExt)) ∉
        AddFilesFromDirectoryToTpaList sosName d entries tpa0) := by
  refine ⟨?_, ?_, ?_, ?_⟩
  · intro p
    rw [mem_AddFiles_iff]
    constructor
    · rintro (h | h | h)
      · exact h
      · rw [mem_AddFiles_iff]; exact Or.inr (Or.inl h)
      · rw [mem_AddFiles_iff]; exact Or.inr (Or.inr h)
    · exact fun h => Or.inl h
  · intro hNI hDL hsos hniL
    constructor
    · rw [mem_AddFiles_iff]
      refine Or.inr (Or.inl ⟨L ++ niExt, rfl, hNI, ⟨L, rfl⟩, ?_⟩)
      rw [stemOf_append]
      exact hsos
    · intro htpa0 hc
      rw [mem_AddFiles_iff] at hc
      rcases hc with h | ⟨n, hp, _, h1, _⟩ | ⟨n, hp, _, _, _, h3⟩
      · exact htpa0 h
      · have hn : L ++ dllExt = n := tpaPath_inj d (L ++ dllExt) n hp
        rw [← hn] at h1
        obtain ⟨a, ha⟩ := h1
        exact hniL (ni_suffix_of_dll L a ha)
      · have hn : L ++ dllExt = n := tpaPath_inj d (L ++ dllExt) n hp
        rw [← hn, stemOf_append] at h3
        exact h3 hNI
  · intro hnosep p1 p2 h1 h2 hlog
    rw [mem_AddFiles_iff] at h1 h2
    have hlogical : ∀ n, fileNamed n entries →
        logicalNameOfPath (d ++ dirSep :: n) = logicalOfName n := by
      intro n hn
      obtain ⟨e, he, hname, _⟩ := hn
      unfold logicalNameOfPath
      rw [fileNamePart_eq d n (hname ▸ hnosep e he)]
    have hw1 : ∃ n, p1 = d ++ dirSep :: n ∧ fileNamed n entries ∧
        (niExt <:+ n ∨ (dllExt <:+ n ∧
          ¬ fileNamed (stemOf dllExt n ++ niExt) entries)) := by
      rcases h1 with h | ⟨n, hp, hf, hs, _⟩ | ⟨n, hp, hf, hs, _, hy⟩
      · exact absurd h (List.not_mem_nil p1)
      · exact ⟨n, hp, hf, Or.inl hs⟩
      · exact ⟨n, hp, hf, Or.inr ⟨hs, hy⟩⟩
    have hw2 : ∃ n, p2 = d ++ dirSep :: n ∧ fileNamed n entries ∧
        (niExt <:+ n ∨ (dllExt <:+ n ∧
          ¬ fileNamed (stemOf dllExt n ++ niExt) entries)) := by
      rcases h2 with h | ⟨n, hp, hf, hs, _⟩ | ⟨n, hp, hf, hs, _, hy⟩
      · exact absurd h (List.not_mem_nil p2)
      · exact ⟨n, hp, hf, Or.inl hs⟩
      · exact ⟨n, hp, hf, Or.inr ⟨hs, hy⟩⟩
    obtain ⟨n1, hp1, hf1, hc1⟩ := hw1
    obtain ⟨n2, hp2, hf2, hc2⟩ := hw2
    subst hp1; subst hp2
    rw [hlogical n1 hf1, hlogical n2 hf2] at hlog
    rw [scan_class_inj entries n1 n2 hf1 hf2 hc1 hc2 hlog]
  · intro hniS htpa0 hc
    rw [mem_AddFiles_iff] at hc
    rcases hc with h | ⟨n, hp, _, h1, h2⟩ | ⟨n, hp, _, _, h2, _⟩
    · exact htpa0 h
    · have hn : sosName ++ dllExt = n :=
        tpaPath_inj d (sosName ++ dllExt) n hp
      rw [← hn] at h1
      obtain ⟨a, ha⟩ := h1
      exact hniS (ni_suffix_of_dll sosName a ha)
    · have hn : sosName ++ dllExt = n :=
        tpaPath_inj d (sosName ++ dllExt) n hp
      rw [← hn, stemOf_append] at h2
      exact h2 rfl

instance fileNamedDecidable (n : List Char) (entries : List FindData) :
    Decidable (fileNamed n entries) :=
  inferInstanceAs
    (Decidable (∃ e ∈ entries, e.cFileName = n ∧ e.isDirectory = false))

/-- Witness for C5 (amended) at a concrete directory holding `f.ni.dll` and
`f.dll`: the optimized image is in the list and the generic variant is not. -/
theorem C5_witness :
    (['d'] ++ dirSep :: (['f'] ++ niExt)) ∈
      AddFilesFromDirectoryToTpaList ['s'] ['d']
        [⟨['f'] ++ niExt, false⟩, ⟨['f'] ++ dllExt, false⟩] [] ∧
    (['d'] ++ dirSep :: (['f'] ++ dllExt)) ∉
      AddFilesFromDirectoryToTpaList ['s'] ['d']
        [⟨['f'] ++ niExt, false⟩, ⟨['f'] ++ dllExt, false⟩] [] := by
  have h := (C5_tpa_list ['s'] ['d']
      [⟨['f'] ++ niExt, false⟩, ⟨['f'] ++ dllExt, false⟩] [] ['f']).2.1
    (by decide) (by decide) (by decide) (by decide)
  exact ⟨h.1, h.2 (List.not_mem_nil _)⟩

end SOS
